import Mathlib

/-!
# Verification of the in-memory HNSW vector index

Shallow embedding of `src/core/src/idx/trees/hnsw.rs` (the HNSW proximity
graph, its document↔vector indirection and the outer shell).

Modelling conventions:
* `ElementId`/`DocId` are `Nat`; machine overflow is irrelevant at the
  index sizes involved (ids are assigned sequentially).
* `f64` distances are modelled as `Int` (see `Dist` below).  The code only
  compares and copies distances — it never computes with them — and the
  Manhattan metric on integer vectors used for the concrete runs is exactly
  integer-valued, so this is faithful on NaN-free inputs (NaN inputs are a
  caller error per the queue contract).
* Rust panics (`unreachable!`, `assert!`, slice/map indexing, integer
  underflow) are modelled by `Option`: `none` means the operation panicked
  (or, for the fuel-bounded search loop, ran out of fuel).
* The `while` loop of `search_layer` is embedded with an explicit fuel
  parameter; `none` on fuel exhaustion.
* The random level generator draws from an explicit list of pre-drawn
  levels stored in the state (`rngLevels`), which externalises the RNG.
* The helper structures `DoublePriorityQueue`, `Ids64` and
  `UndirectedGraph` live in files of this repository that are not part of
  the sources under verification; they are modelled from the spec (see the
  doc comments below).
-/

namespace Hnsw2Proof

abbrev EId := Nat
abbrev DocId := Nat
/-- `f64` distances.  The embedded code never performs arithmetic on a
distance — it only compares, copies and orders them — so any linearly
ordered carrier is faithful; `Int` is exact for the Manhattan metric on
integer vectors used to instantiate concrete runs. -/
abbrev Dist := Int
/-- A vector is a sequence of integer components (`VectorType::I16` etc.). -/
abbrev Vec := List Int

/-- Modelled from the spec: Manhattan distance `Σ|u_i−v_i|` (§4.A); the
distance functions live outside the verified sources.  Used to instantiate
the `dist` field on concrete inputs. -/
def manhattan : Vec → Vec → Dist
  | x :: xs, y :: ys => ((x - y).natAbs : Dist) + manhattan xs ys
  | _, _ => 0

theorem manhattan_nonneg : ∀ u v, 0 ≤ manhattan u v := by
  intro u
  induction u with
  | nil => intro v; cases v <;> simp [manhattan]
  | cons x xs ih =>
    intro v
    cases v with
    | nil => simp [manhattan]
    | cons y ys =>
      have h := ih ys
      simp only [manhattan]
      positivity

/-! ## Association lists

Finite maps (`HashMap`, the radix trie, the per-layer adjacency map) are
embedded as association lists. -/

/-- Lookup in an association list (`HashMap::get`). -/
def alGet {κ α : Type} [DecidableEq κ] : List (κ × α) → κ → Option α
  | [], _ => none
  | (k, a) :: t, k' => if k' = k then some a else alGet t k'

/-- Insert-or-replace in an association list (`HashMap::insert`). -/
def alSet {κ α : Type} [DecidableEq κ] : List (κ × α) → κ → α → List (κ × α)
  | [], k, a => [(k, a)]
  | (k0, a0) :: t, k, a => if k = k0 then (k, a) :: t else (k0, a0) :: alSet t k a

/-- Remove a key from an association list (`HashMap::remove`). -/
def alErase {κ α : Type} [DecidableEq κ] : List (κ × α) → κ → List (κ × α)
  | [], _ => []
  | (k0, a0) :: t, k => if k = k0 then t else (k0, a0) :: alErase t k

/-- The keys of an association list. -/
def alKeys {κ α : Type} : List (κ × α) → List κ := List.map Prod.fst

/-! ## The double-ended priority queue

Modelled from the spec: `DoublePriorityQueue` (§4.C) is a double-ended
priority queue keyed by distance with values `ElementId`; `push` inserts
(duplicates allowed), `pop_first`/`peek_first` access the minimum,
`pop_last`/`peek_last` the maximum, and consuming iteration is in
ascending order ("take the k smallest", §4.F).  It is embedded as a list
sorted by `(distance, id)` lexicographically (ties between equal distances
are unspecified by the spec; the id ordering fixes a canonical choice). -/

abbrev QEntry := Dist × EId

/-- The total order on queue entries. -/
def qle (a b : QEntry) : Prop := a.1 < b.1 ∨ (a.1 = b.1 ∧ a.2 ≤ b.2)

instance : DecidableRel qle := fun a b => by unfold qle; infer_instance

instance : IsTotal QEntry qle := by
  constructor
  intro a b
  rcases lt_trichotomy a.1 b.1 with h | h | h
  · exact Or.inl (Or.inl h)
  · rcases Nat.le_total a.2 b.2 with h2 | h2
    · exact Or.inl (Or.inr ⟨h, h2⟩)
    · exact Or.inr (Or.inr ⟨h.symm, h2⟩)
  · exact Or.inr (Or.inl h)

instance : IsTrans QEntry qle := by
  constructor
  rintro a b c (h1 | ⟨h1, h1'⟩) (h2 | ⟨h2, h2'⟩)
  · exact Or.inl (h1.trans h2)
  · exact Or.inl (h2 ▸ h1)
  · exact Or.inl (h1 ▸ h2)
  · exact Or.inr ⟨h1.trans h2, h1'.trans h2'⟩

instance : IsRefl QEntry qle := ⟨fun _ => Or.inr ⟨rfl, le_refl _⟩⟩

abbrev Q := List QEntry

/-- `DoublePriorityQueue::push` (duplicates allowed). -/
def qPush (q : Q) (d : Dist) (e : EId) : Q := List.orderedInsert qle (d, e) q

/-- `DoublePriorityQueue::pop_first`: remove the minimum entry. -/
def qPopFirst (q : Q) : Option (QEntry × Q) :=
  match q with
  | [] => none
  | x :: xs => some (x, xs)

/-- `DoublePriorityQueue::pop_last`: remove the maximum entry. -/
def qPopLast (q : Q) : Option (QEntry × Q) :=
  match q.getLast? with
  | none => none
  | some x => some (x, q.dropLast)

/-- `DoublePriorityQueue::peek_first`. -/
def qFirst (q : Q) : Option QEntry := q.head?

/-- `DoublePriorityQueue::peek_last`. -/
def qLast (q : Q) : Option QEntry := q.getLast?

/-- The ids held in a queue. -/
def idsQ (q : Q) : List EId := q.map Prod.snd

/-- Well-formedness of the queue representation. -/
def QSorted (q : Q) : Prop := List.Sorted qle q

/-! ## Neighbor selection policies (`SelectNeighbors`)

`SelectNeighbors::simple / heuristic / heuristic_keep` from
`src/core/src/idx/trees/hnsw.rs`.  The result type in the source is
`HashSet<ElementId>`; it is embedded as a duplicate-free list built by
`hsInsert`, compared up to `toFinset`. -/

/-- `HashSet::insert` on a duplicate-free list. -/
def hsInsert (r : List EId) (e : EId) : List EId :=
  if e ∈ r then r else r ++ [e]

/-- Threshold comparison `e_dist < closest_neighbors_distance`, where the
threshold starts at `f64::MAX` / `f64::INFINITY` (modelled as `none`,
above every finite distance). -/
def thrLt (d : Dist) : Option Dist → Bool
  | none => true
  | some t => decide (d < t)

/-- `SelectNeighbors::simple`: take the `m_max` smallest-distance
candidates. -/
def simple (w : Q) (m_max : Nat) : List EId :=
  ((w.take m_max).map Prod.snd).dedup

/-- The `while let Some(...) = c.pop_first()` loop of
`SelectNeighbors::heuristic`. -/
def heuristicLoop (m_max : Nat) : Q → Option Dist → List EId → List EId
  | [], _, r => r
  | (d, e) :: rest, thr, r =>
    if thrLt d thr then
      let r' := hsInsert r e
      if m_max ≤ r'.length then r' else heuristicLoop m_max rest (some d) r'
    else
      heuristicLoop m_max rest thr r

/-- `SelectNeighbors::heuristic`. -/
def heuristic (c : Q) (m_max : Nat) : List EId :=
  heuristicLoop m_max c none []

/-- The loop of `SelectNeighbors::heuristic_keep`, also accumulating the
rejected ids `wd` in FIFO order. -/
def heuristicKeepLoop (m_max : Nat) :
    Q → Option Dist → List EId → List EId → List EId × List EId
  | [], _, r, wd => (r, wd)
  | (d, e) :: rest, thr, r, wd =>
    if thrLt d thr then
      let r' := hsInsert r e
      if m_max ≤ r'.length then (r', wd) else heuristicKeepLoop m_max rest (some d) r' wd
    else
      heuristicKeepLoop m_max rest thr r (wd ++ [e])

/-- `SelectNeighbors::heuristic_keep`: run the heuristic, then fill the
remaining `m_max − |r|` slots from the front of the rejected list. -/
def heuristicKeep (c : Q) (m_max : Nat) : List EId :=
  let (r, wd) := heuristicKeepLoop m_max c none [] []
  let d := Nat.min (m_max - r.length) wd.length
  (wd.take d).foldl hsInsert r

/-! ## The undirected layer graph (`UndirectedGraph`)

Modelled from the spec (§4.D): the per-layer graph maps
`ElementId → set<ElementId>`; `add_empty_node` inserts an isolated node if
absent; `add_node` attaches a node with a given neighbor set (symmetric
insertion, self-loops filtered, `None` if the node already exists) and
returns the neighbor set actually attached; `set_node` replaces a node's
edge set with symmetric removals/insertions; `remove_node` removes a node
and symmetrically drops it from its neighbors, returning its former
neighbors.  Neighbor sets are duplicate-free lists. -/

abbrev Graph := List (EId × List EId)

/-- `UndirectedGraph::get_edges`. -/
def getEdges (g : Graph) (e : EId) : Option (List EId) := alGet g e

/-- The edges of `e`, empty when `e` is not a node. -/
def edgesD (g : Graph) (e : EId) : List EId := (getEdges g e).getD []

/-- Insert `x` into the edge set of `n`, creating the node if it is
absent (entry-or-default). -/
def edgeInsert (g : Graph) (n : EId) (x : EId) : Graph :=
  match alGet g n with
  | none => g ++ [(n, [x])]
  | some es => alSet g n (if x ∈ es then es else es ++ [x])

/-- Remove `x` from the edge set of `n` (no-op when `n` is absent). -/
def edgeRemove (g : Graph) (n : EId) (x : EId) : Graph :=
  match alGet g n with
  | none => g
  | some es => alSet g n (es.erase x)

/-- `UndirectedGraph::add_empty_node`: returns whether the node was newly
inserted. -/
def addEmptyNode (g : Graph) (e : EId) : Graph × Bool :=
  match alGet g e with
  | some _ => (g, false)
  | none => (g ++ [(e, [])], true)

/-- `UndirectedGraph::add_node`: `none` when `e` already exists; otherwise
attach `e` with the given neighbors (self-loops filtered, I4), insert `e`
symmetrically into each neighbor's set, and return the attached set. -/
def addNode (g : Graph) (e : EId) (ns : List EId) : Option (Graph × List EId) :=
  match alGet g e with
  | some _ => none
  | none =>
    let attached := (ns.filter (· ≠ e)).dedup
    let g1 := g ++ [(e, attached)]
    some (attached.foldl (fun acc n => edgeInsert acc n e) g1, attached)

/-- `UndirectedGraph::set_node`: replace the edge set of `e`, symmetrically
removing `e` from dropped neighbors and inserting it into new ones. -/
def setNode (g : Graph) (e : EId) (ns : List EId) : Graph :=
  let old := edgesD g e
  let new := (ns.filter (· ≠ e)).dedup
  let g1 := alSet g e new
  let g2 := (old.filter (· ∉ new)).foldl (fun acc n => edgeRemove acc n e) g1
  (new.filter (· ∉ old)).foldl (fun acc n => edgeInsert acc n e) g2

/-- `UndirectedGraph::remove_node`: remove `e` and symmetrically drop it
from its neighbors' sets, returning the former neighbors. -/
def removeNode (g : Graph) (e : EId) : Option (List EId × Graph) :=
  match alGet g e with
  | none => none
  | some old =>
    let g1 := alErase g e
    some (old, old.foldl (fun acc n => edgeRemove acc n e) g1)

/-! ## The HNSW graph (`Hnsw`)

From `src/core/src/idx/trees/hnsw.rs`.  The RNG is externalised: the
pre-drawn random levels sit in `rngLevels` and `get_random_level` pops the
next one (defaulting to 0), so every theorem quantifies over all level
sequences.  The distance function is a field (the source stores a
`Distance` selector whose `calculate` lives outside the verified
sources). -/

inductive Policy where
  | simplePol
  | heuristicPol
  | heuristicExtPol
  | heuristicKeepPol
  | heuristicExtKeepPol
deriving DecidableEq, Repr

structure Hnsw where
  m : Nat
  m0 : Nat
  efc : Nat
  layers : List Graph
  enterPoint : Option EId
  elements : List (EId × Vec)
  nextElementId : EId
  policy : Policy
  dist : Vec → Vec → Dist
  rngLevels : List Nat

namespace Hnsw

/-- `Hnsw::new` (construction from the parameters; the RNG seed is the
explicit level list). -/
def new (m m0 efc : Nat) (policy : Policy) (dist : Vec → Vec → Dist)
    (rngLevels : List Nat) : Hnsw :=
  { m := m, m0 := m0, efc := efc, layers := [], enterPoint := none,
    elements := [], nextElementId := 0, policy := policy, dist := dist,
    rngLevels := rngLevels }

/-- `Hnsw::get_random_level`: pop the next pre-drawn level. -/
def getRandomLevel (h : Hnsw) : Nat × Hnsw :=
  match h.rngLevels with
  | [] => (0, h)
  | l :: rest => (l, { h with rngLevels := rest })

/-- `Hnsw::get_pn`: `(dist(elements[e_id], q), e_id)`; the map indexing
panics (`none`) when the element is missing. -/
def getPn (h : Hnsw) (q : Vec) (e : EId) : Option QEntry :=
  (alGet h.elements e).map fun pt => (h.dist pt q, e)

/-- One neighbor step of the `search_layer` loop body: visit `e`, and when
it is a live element close enough, push it onto the candidate and result
queues (evicting the maximum when `w` overflows `ef`). -/
def searchStep (h : Hnsw) (q : Vec) (ef : Nat)
    (st : Q × List EId × Q × Dist) (e : EId) : Option (Q × List EId × Q × Dist) :=
  let (cand, vis, w, fd) := st
  if e ∈ vis then some st
  else
    let vis' := e :: vis
    match alGet h.elements e with
    | none => some (cand, vis', w, fd)
    | some ept =>
      let ed := h.dist ept q
      if ed < fd ∨ w.length < ef then
        let cand' := qPush cand ed e
        let w' := qPush w ed e
        if ef < w'.length then
          match qPopLast w' with
          | none => none
          | some (_, w2) =>
            match qLast w2 with
            | none => none
            | some (fd2, _) => some (cand', vis', w2, fd2)
        else
          match qLast w' with
          | none => none
          | some (fd2, _) => some (cand', vis', w', fd2)
      else
        some (cand, vis', w, fd)

/-- The `while let Some((dist, doc)) = candidates.pop_first()` loop of
`Hnsw::search_layer`, with fuel. -/
def searchLoop (h : Hnsw) (q : Vec) (ef : Nat) (l : Graph) :
    Nat → Q → List EId → Q → Dist → Option Q
  | 0, _, _, _, _ => none
  | fuel + 1, cand, vis, w, fd =>
    match qPopFirst cand with
    | none => some w
    | some ((d, c), cand') =>
      if fd < d then some w
      else
        match getEdges l c with
        | none => searchLoop h q ef l fuel cand' vis w fd
        | some es =>
          match es.foldlM (searchStep h q ef) (cand', vis, w, fd) with
          | none => none
          | some (cand2, vis2, w2, fd2) => searchLoop h q ef l fuel cand2 vis2 w2 fd2

/-- `Hnsw::search_layer`: the initial `f_dist` is the maximum of the seeded
result queue; the source asserts (`unreachable!`) that `w` is non-empty
here, so an empty seed is a panic (`none`). -/
def searchLayer (h : Hnsw) (q : Vec) (fuel : Nat) (cand : Q) (vis : List EId)
    (w : Q) (ef : Nat) (l : Graph) : Option Q :=
  match qLast w with
  | none => none
  | some (fd, _) => searchLoop h q ef l fuel cand vis w fd

/-- `Hnsw::search_layer_single`. -/
def searchLayerSingle (h : Hnsw) (q : Vec) (ep : QEntry) (ef : Nat)
    (l : Graph) (fuel : Nat) : Option Q :=
  searchLayer h q fuel [ep] [ep.2] [ep] ef l

/-- `Hnsw::search_layer_multi` (the visited set and the result queue are
both seeded from the candidate queue). -/
def searchLayerMulti (h : Hnsw) (q : Vec) (cand : Q) (ef : Nat)
    (l : Graph) (fuel : Nat) : Option Q :=
  searchLayer h q fuel cand (idsQ cand) cand ef l

/-- `Hnsw::search_layer_single_ignore_ep` (the result queue is seeded with
the entry point, like the plain single variant). -/
def searchLayerSingleIgnoreEp (h : Hnsw) (q : Vec) (ep : QEntry)
    (l : Graph) (fuel : Nat) : Option (Option QEntry) :=
  (searchLayer h q fuel [ep] [ep.2] [ep] 1 l).map qFirst

/-- `Hnsw::search_layer_multi_ignore_ep` (the result queue starts empty). -/
def searchLayerMultiIgnoreEp (h : Hnsw) (q : Vec) (ep : QEntry) (ef : Nat)
    (l : Graph) (fuel : Nat) : Option Q :=
  searchLayer h q fuel [ep] [ep.2] [] ef l

/-- The inner update of `SelectNeighbors::extand`: visit one adjacent id,
remembering it in `ex` and recording its distance when it is a live
element other than the inserted one. -/
def extandInner (h : Hnsw) (q_id : EId) (q_pt : Vec)
    (st : List EId × List QEntry) (e_adj : EId) : List EId × List QEntry :=
  let (ex, ext) := st
  if e_adj ≠ q_id ∧ e_adj ∉ ex then
    let ex' := e_adj :: ex
    match alGet h.elements e_adj with
    | none => (ex', ext)
    | some pt => (ex', ext ++ [(h.dist q_pt pt, e_adj)])
  else (ex, ext)

/-- The outer loop of `SelectNeighbors::extand` over the candidate queue;
a candidate missing from the layer is a panic (`unreachable!`). -/
def extandLoop (h : Hnsw) (q_id : EId) (q_pt : Vec) (l : Graph) :
    List QEntry → (List EId × List QEntry) → Option (List EId × List QEntry)
  | [], st => some st
  | (_, e_id) :: rest, st =>
    match getEdges l e_id with
    | none => none
    | some es => extandLoop h q_id q_pt l rest (es.foldl (extandInner h q_id q_pt) st)

/-- `SelectNeighbors::extand`: extend the candidate queue by the
neighbors of its candidates. -/
def extand (h : Hnsw) (l : Graph) (q_id : EId) (q_pt : Vec) (c : Q)
    (_m_max : Nat) : Option Q :=
  (extandLoop h q_id q_pt l c (idsQ c, [])).map fun st =>
    st.2.foldl (fun q de => qPush q de.1 de.2) c

/-- `SelectNeighbors::select`: dispatch on the policy chosen at
construction. -/
def selectN (h : Hnsw) (l : Graph) (q_id : EId) (q_pt : Vec) (c : Q)
    (m_max : Nat) : Option (List EId) :=
  match h.policy with
  | .simplePol => some (simple c m_max)
  | .heuristicPol => some (heuristic c m_max)
  | .heuristicExtPol => (extand h l q_id q_pt c m_max).map (heuristic · m_max)
  | .heuristicKeepPol => some (heuristicKeep c m_max)
  | .heuristicExtKeepPol => (extand h l q_id q_pt c m_max).map (heuristicKeep · m_max)

/-- `Hnsw::build_priority_list`: the distances from `e_id` to its live
neighbors (indexing `elements[e_id]` panics when absent). -/
def buildPriorityList (h : Hnsw) (e_id : EId) (neighbors : List EId) : Option Q :=
  match alGet h.elements e_id with
  | none => none
  | some e_pt =>
    some (neighbors.foldl
      (fun w n =>
        match alGet h.elements n with
        | none => w
        | some n_pt => qPush w (h.dist e_pt n_pt) n) [])

/-- The greedy descent `ep = search_layer_single(q, ep, 1, layers[lc]).first()`
over a list of layer indices (shared by `insert_element` and
`knn_search`). -/
def descendLoop (h : Hnsw) (q : Vec) (fuel : Nat) :
    List Nat → QEntry → Option QEntry
  | [], ep => some ep
  | lc :: rest, ep =>
    match searchLayerSingle h q ep 1 (h.layers.getD lc []) fuel with
    | none => none
    | some w =>
      match qFirst w with
      | none => none
      | some ep' => descendLoop h q fuel rest ep'

/-- The shrink step of `insert_element`: re-select the neighbors of every
over-full node just attached to `q_id`. -/
def shrinkLoop (lc m_max : Nat) : Hnsw → List EId → Option Hnsw
  | h, [] => some h
  | h, n :: rest =>
    let layer := h.layers.getD lc []
    match getEdges layer n with
    | none => none
    | some e_conn =>
      if m_max < e_conn.length then
        match alGet h.elements n with
        | none => none
        | some n_pt =>
          match buildPriorityList h n e_conn with
          | none => none
          | some n_c =>
            match selectN h layer n n_pt n_c m_max with
            | none => none
            | some conn =>
              shrinkLoop lc m_max
                { h with layers := h.layers.set lc (setNode layer n conn) } rest
      else shrinkLoop lc m_max h rest

/-- The linking phase of `insert_element` over the layer indices
`min(top, q_level)..=0` (descending): search the layer, carry the result
into the next layer, select and attach neighbors, then shrink. -/
def linkLoop (q_id : EId) (q_pt : Vec) (fuel : Nat) :
    List Nat → Hnsw → Q → Option (Hnsw × Q)
  | [], h, eps => some (h, eps)
  | lc :: rest, h, eps =>
    let m_max := if lc = 0 then h.m0 else h.m
    let layer := h.layers.getD lc []
    match searchLayerMulti h q_pt eps h.efc layer fuel with
    | none => none
    | some w =>
      match selectN h layer q_id q_pt w m_max with
      | none => none
      | some neighbors =>
        match addNode layer q_id neighbors with
        | none => none
        | some (layer1, attached) =>
          match shrinkLoop lc m_max
              { h with layers := h.layers.set lc layer1 } attached with
          | none => none
          | some h1 => linkLoop q_id q_pt fuel rest h1 w

/-- The topping loop of `insert_element`: add `q_id` as an empty node on
the layers above the previous top (a pre-existing node is a panic). -/
def toppingLoop (q_id : EId) : List Nat → Hnsw → Option Hnsw
  | [], h => some h
  | lc :: rest, h =>
    let (layer1, fresh) := addEmptyNode (h.layers.getD lc []) q_id
    if fresh then toppingLoop q_id rest { h with layers := h.layers.set lc layer1 }
    else none

/-- `Hnsw::insert_element`. -/
def insertElement (h : Hnsw) (q_id : EId) (q_pt : Vec) (q_level : Nat)
    (ep_id : EId) (top : Nat) (fuel : Nat) : Option Hnsw := do
  let ep ← h.getPn q_pt ep_id
  let ep ← descendLoop h q_pt fuel ((List.range' (q_level + 1) (top - q_level)).reverse) ep
  let (h1, _) ← linkLoop q_id q_pt fuel ((List.range (Nat.min top q_level + 1)).reverse) h [ep]
  let h2 ← toppingLoop q_id (List.range' (top + 1) (q_level - top)) h1
  if top < q_level then some { h2 with enterPoint := some q_id } else some h2

/-- `Hnsw::insert_first_element`: add `id` as an empty node on the layers
`0..=level` and make it the enter point. -/
def insertFirstElement (h : Hnsw) (id : EId) (level : Nat) : Hnsw :=
  let layers := (List.range (level + 1)).foldl
    (fun ls lc => ls.set lc (addEmptyNode (ls.getD lc []) id).1) h.layers
  { h with layers := layers, enterPoint := some id }

/-- `Hnsw::insert_level`: assign the next element id, grow the layer
stack up to `q_level`, record the vector and link the new element. -/
def insertLevel (h : Hnsw) (q_pt : Vec) (q_level : Nat) (fuel : Nat) :
    Option (Hnsw × EId) :=
  let q_id := h.nextElementId
  let layersLen := h.layers.length
  let h1 := { h with layers := h.layers ++ List.replicate (q_level + 1 - layersLen) [] }
  let h2 := { h1 with elements := alSet h1.elements q_id q_pt }
  match h2.enterPoint with
  | some ep_id =>
    (insertElement h2 q_id q_pt q_level ep_id (layersLen - 1) fuel).map
      fun h3 => ({ h3 with nextElementId := q_id + 1 }, q_id)
  | none =>
    some ({ insertFirstElement h2 q_id q_level with nextElementId := q_id + 1 }, q_id)

/-- `Hnsw::insert`: draw the random level and insert. -/
def insert (h : Hnsw) (q_pt : Vec) (fuel : Nat) : Option (Hnsw × EId) :=
  let (q_level, h1) := h.getRandomLevel
  h1.insertLevel q_pt q_level fuel

/-- The rewiring of one removed node's former neighbors on one layer
(`for q_id in f_ids` in `Hnsw::remove`); the `assert!` that the new
neighbor set excludes `q_id` is a panic when violated. -/
def rewireLoop (e_id lc m_max fuel : Nat) : Hnsw → List EId → Option Hnsw
  | h, [] => some h
  | h, q_id :: rest =>
    match alGet h.elements q_id with
    | none => rewireLoop e_id lc m_max fuel h rest
    | some q_pt =>
      let layer := h.layers.getD lc []
      match searchLayerMultiIgnoreEp h q_pt (0, q_id) h.efc layer fuel with
      | none => none
      | some c =>
        match selectN h layer q_id q_pt c m_max with
        | none => none
        | some neighbors =>
          if q_id ∈ neighbors then none
          else rewireLoop e_id lc m_max fuel
            { h with layers := h.layers.set lc (setNode layer q_id neighbors) } rest

/-- The per-layer loop of `Hnsw::remove` (descending layer indices). -/
def removeLoop (e_id fuel : Nat) : List Nat → Hnsw → Bool → Option (Hnsw × Bool)
  | [], h, removed => some (h, removed)
  | lc :: rest, h, removed =>
    let m_max := if lc = 0 then h.m0 else h.m
    match removeNode (h.layers.getD lc []) e_id with
    | none => removeLoop e_id fuel rest h removed
    | some (f_ids, layer1) =>
      match rewireLoop e_id lc m_max fuel
          { h with layers := h.layers.set lc layer1 } f_ids with
      | none => none
      | some h1 => removeLoop e_id fuel rest h1 true

/-- `Hnsw::remove`. -/
def remove (h : Hnsw) (e_id : EId) (fuel : Nat) : Option (Hnsw × Bool) :=
  match alGet h.elements e_id with
  | none => some (h, false)
  | some e_pt =>
    let layersLen := h.layers.length
    let nepStep : Option (Option QEntry) :=
      if h.enterPoint = some e_id then
        searchLayerSingleIgnoreEp h e_pt (0, e_id) (h.layers.getD (layersLen - 1) []) fuel
      else some none
    match nepStep with
    | none => none
    | some newEp =>
      let h1 := { h with elements := alErase h.elements e_id }
      match removeLoop e_id fuel ((List.range layersLen).reverse) h1 false with
      | none => none
      | some (h2, removed) =>
        if removed ∧ h2.enterPoint = some e_id then
          some ({ h2 with enterPoint := newEp.map Prod.snd }, removed)
        else some (h2, removed)

/-- `Hnsw::knn_search`: descend from the enter point to layer 1 with
`ef = 1`, search layer 0 with width `efs`, return the `k` smallest. -/
def knnSearch (h : Hnsw) (q : Vec) (k : Nat) (efs : Nat) (fuel : Nat) :
    Option (List QEntry) :=
  match h.enterPoint with
  | none => some []
  | some ep_id => do
    let ep ← h.getPn q ep_id
    let ep ← descendLoop h q fuel ((List.range' 1 (h.layers.length - 1)).reverse) ep
    let w ← searchLayerSingle h q ep efs (h.layers.getD 0 []) fuel
    return w.take k

end Hnsw

/-! ## The document ↔ `DocId` map (`HnswDocs`)

From `src/core/src/idx/trees/hnsw.rs`.  External record identifiers
(`Thing`) are modelled as `Nat`; the radix trie as an association list;
the `RoaringTreemap` freelist as a sorted duplicate-free list whose head
is its smallest member (`iter().next()`). -/

structure HnswDocs where
  docIds : List (Nat × DocId)
  idsDoc : List (Option Nat)
  available : List DocId

namespace HnswDocs

def empty : HnswDocs := { docIds := [], idsDoc := [], available := [] }

/-- Insert into the freelist (`RoaringTreemap::insert`), keeping it
sorted and duplicate-free. -/
def availInsert (a : List DocId) (d : DocId) : List DocId :=
  if d ∈ a then a else List.orderedInsert (· ≤ ·) d a

/-- `HnswDocs::next_doc_id`: pop the smallest free id, else append. -/
def nextDocId (d : HnswDocs) : DocId × HnswDocs :=
  match d.available with
  | [] => (d.idsDoc.length, d)
  | id :: rest => (id, { d with available := rest })

/-- `HnswDocs::resolve`: return the existing mapping, or allocate a
`DocId` and record the mapping both ways.  Note the source appends the
record at the end of `ids_doc` (`push`) even when the allocated id was
recycled from the freelist. -/
def resolve (d : HnswDocs) (rid : Nat) : DocId × HnswDocs :=
  match alGet d.docIds rid with
  | some id => (id, d)
  | none =>
    let (id, d1) := d.nextDocId
    (id, { d1 with idsDoc := d1.idsDoc ++ [some rid],
                    docIds := alSet d1.docIds rid id })

/-- `HnswDocs::get`: slot lookup, `none` out of range or removed. -/
def get (d : HnswDocs) (docId : DocId) : Option Nat :=
  match d.idsDoc.get? docId with
  | some t => t
  | none => none

/-- `HnswDocs::remove`: drop the trie mapping, clear the slot (when in
range) and free the id. -/
def remove (d : HnswDocs) (rid : Nat) : Option DocId × HnswDocs :=
  match alGet d.docIds rid with
  | none => (none, d)
  | some docId =>
    let ids := if docId < d.idsDoc.length then d.idsDoc.set docId none else d.idsDoc
    (some docId, { docIds := alErase d.docIds rid, idsDoc := ids,
                   available := availInsert d.available docId })

end HnswDocs

/-! ## The outer index (`HnswIndex`)

From `src/core/src/idx/trees/hnsw.rs`.  The `Ids64` doc-set (which lives
outside the verified sources) is modelled from the spec as a sorted
duplicate-free list of `DocId`s: `insert`/`remove` return the new set, or
`none` when the set is unchanged in place, mirroring the
`if let Some(new_docs) = ...` update pattern of the callers (the net
effect on the holder is set union / set difference). -/

/-- Modelled from the spec: `Ids64::insert` — `none` when the doc is
already present (no representation change needed). -/
def idsInsert (docs : List DocId) (d : DocId) : Option (List DocId) :=
  if d ∈ docs then none else some (List.orderedInsert (· ≤ ·) d docs)

/-- Modelled from the spec: `Ids64::remove` — `none` when the doc is
absent. -/
def idsRemove (docs : List DocId) (d : DocId) : Option (List DocId) :=
  if d ∈ docs then some (docs.erase d) else none

structure HnswIndex where
  dim : Nat
  hnsw : Hnsw
  docs : HnswDocs
  vecDocs : List (Vec × (List DocId × EId))

namespace HnswIndex

/-- `HnswIndex::new`. -/
def new (dim m m0 efc : Nat) (policy : Policy) (dist : Vec → Vec → Dist)
    (rngLevels : List Nat) : HnswIndex :=
  { dim := dim, hnsw := Hnsw.new m m0 efc policy dist rngLevels,
    docs := HnswDocs.empty, vecDocs := [] }

/-- `HnswIndex::insert`: add the doc to an existing vector's doc-set, or
insert a fresh vector into the HNSW graph. -/
def insert (s : HnswIndex) (o : Vec) (d : DocId) (fuel : Nat) : Option HnswIndex :=
  match alGet s.vecDocs o with
  | some (docs, eid) =>
    match idsInsert docs d with
    | some nd => some { s with vecDocs := alSet s.vecDocs o (nd, eid) }
    | none => some s
  | none =>
    (s.hnsw.insert o fuel).map fun he =>
      { s with hnsw := he.1, vecDocs := alSet s.vecDocs o ([d], he.2) }

/-- `HnswIndex::remove`: remove the doc from the vector's doc-set; when
the set becomes empty, erase the entry and remove the element from the
HNSW graph. -/
def remove (s : HnswIndex) (o : Vec) (d : DocId) (fuel : Nat) : Option HnswIndex :=
  match alGet s.vecDocs o with
  | none => some s
  | some (docs, eid) =>
    match idsRemove docs d with
    | none => some s
    | some nd =>
      if nd.isEmpty then
        (s.hnsw.remove eid fuel).map fun hr =>
          { s with hnsw := hr.1, vecDocs := alErase s.vecDocs o }
      else some { s with vecDocs := alSet s.vecDocs o (nd, eid) }

/-- Modelled from the spec: `Vector::try_from_value` followed by
`check_dimension` (§4.B, §4.H) — materialize a typed vector from an
external value, failing on a dimension/type mismatch.  The mismatch is
modelled as a wrong component count. -/
def checkValue (dim : Nat) (v : List Int) : Option Vec :=
  if v.length = dim then some v else none

/-- The `for value in content` loop of `HnswIndex::index_document`; the
`Bool` is `false` when the loop returned a dimension/type error. -/
def indexDocLoop (docId : DocId) (fuel : Nat) :
    List (List Int) → HnswIndex → Option (HnswIndex × Bool)
  | [], s => some (s, true)
  | v :: rest, s =>
    match checkValue s.dim v with
    | none => some (s, false)
    | some vec =>
      match s.insert vec docId fuel with
      | none => none
      | some s1 => indexDocLoop docId fuel rest s1

/-- `HnswIndex::index_document`: resolve the doc id first, then index the
values one by one (no rollback on error). -/
def indexDocument (s : HnswIndex) (rid : Nat) (content : List (List Int))
    (fuel : Nat) : Option (HnswIndex × Bool) :=
  let r := s.docs.resolve rid
  indexDocLoop r.1 fuel content { s with docs := r.2 }

/-- The `for v in content` loop of `HnswIndex::remove_document`. -/
def removeDocLoop (docId : DocId) (fuel : Nat) :
    List (List Int) → HnswIndex → Option (HnswIndex × Bool)
  | [], s => some (s, true)
  | v :: rest, s =>
    match checkValue s.dim v with
    | none => some (s, false)
    | some vec =>
      match s.remove vec docId fuel with
      | none => none
      | some s1 => removeDocLoop docId fuel rest s1

/-- `HnswIndex::remove_document`: reverse-resolve the record (a silent
no-op when unknown), then remove the vectors. -/
def removeDocument (s : HnswIndex) (rid : Nat) (content : List (List Int))
    (fuel : Nat) : Option (HnswIndex × Bool) :=
  match s.docs.remove rid with
  | (none, _) => some (s, true)
  | (some docId, docs1) => removeDocLoop docId fuel content { s with docs := docs1 }

end HnswIndex

/-! ## Concrete states used by the counterexamples

A two-element index: the vectors `[1]` and `[2]`, both inserted at level
0, Euclidean parameters `m = 4, m0 = 4, efc = 10`, Simple selection,
Manhattan distance.  Layer 0 is the single edge `0 — 1`. -/

/-- The two-element HNSW graph built by two inserts at level 0. -/
def twoElemH : Option Hnsw :=
  ((Hnsw.new 4 4 10 .simplePol manhattan []).insertLevel [1] 0 20).bind
    fun p => (p.1.insertLevel [2] 0 20).map Prod.fst

/-- The two-element state itself (the first conjunct of the theorems
below proves `twoElemH = some twoElemHD`, i.e. both inserts succeed). -/
def twoElemHD : Hnsw := twoElemH.getD (Hnsw.new 4 4 10 .simplePol manhattan [])

/-! ## Theorems for the claims -/

/-- **C1.** The degree-cap claim presumes that `remove` completes its
rewiring.  It cannot: `search_layer_multi_ignore_ep` seeds the result
queue `w` empty, and `search_layer` asserts `w` non-empty
(`unwrap_or_else(|| unreachable!())` on `w.last()`), so removing an
element that has a live former neighbor panics during rewiring.  On the
two-element graph (whose inserts all succeed), `remove 0` hits the
assertion (`none`), for every fuel. -/
theorem c1_remove_rewiring_panics :
    twoElemH = some twoElemHD ∧ ∀ fuel, twoElemHD.remove 0 fuel = none := by
  refine ⟨rfl, fun fuel => ?_⟩
  unfold Hnsw.remove
  simp only [show alGet twoElemHD.elements 0 = some [1] from rfl,
    show twoElemHD.enterPoint = some 0 from rfl, if_pos rfl]
  cases hn : twoElemHD.searchLayerSingleIgnoreEp [1] (0, 0)
      (twoElemHD.layers.getD (twoElemHD.layers.length - 1) []) fuel with
  | none => rfl
  | some nep => rfl

/-- With a nonnegative distance and the result queue pinned at the single
entry `(0, e)` with `ef = 1`, no neighbor can ever be pushed: the fold of
`searchStep` only grows the visited set. -/
theorem foldlM_searchStep_stable (h : Hnsw) (q : Vec) (es : List EId)
    (cand : Q) (vis : List EId) (e : EId)
    (hd : ∀ a b, 0 ≤ h.dist a b) :
    ∃ vis2, es.foldlM (Hnsw.searchStep h q 1) (cand, vis, [((0 : Dist), e)], (0 : Dist)) =
      some (cand, vis2, [((0 : Dist), e)], (0 : Dist)) := by
  induction es generalizing vis with
  | nil => exact ⟨vis, rfl⟩
  | cons x xs ih =>
    rw [List.foldlM_cons]
    by_cases hx : x ∈ vis
    · have hstep : Hnsw.searchStep h q 1 (cand, vis, [((0 : Dist), e)], (0 : Dist)) x =
          some (cand, vis, [((0 : Dist), e)], (0 : Dist)) := by
        unfold Hnsw.searchStep
        simp [hx]
      rw [hstep]
      exact ih vis
    · have hstep : Hnsw.searchStep h q 1 (cand, vis, [((0 : Dist), e)], (0 : Dist)) x =
          some (cand, x :: vis, [((0 : Dist), e)], (0 : Dist)) := by
        unfold Hnsw.searchStep
        simp only [if_neg hx]
        cases hel : alGet h.elements x with
        | none => simp
        | some ept =>
          have h1 : ¬ (h.dist ept q < 0 ∨ [((0 : Dist), e)].length < 1) := by
            push_neg
            exact ⟨hd ept q, by simp⟩
          dsimp only
          rw [if_neg h1]
      rw [hstep]
      exact ih (x :: vis)

/-- **C2.** `search_layer_single_ignore_ep` does *not* exclude the seeding
element: it seeds the result queue `w` with the entry point (unlike the
multi variant, which seeds `w` empty), and with seed distance `0.0`,
`ef = 1` and a nonnegative metric nothing can ever displace it, so the
function always returns the seeding element `(0.0, e)` itself.
Consequently the replacement enter point computed by `remove` for a
deleted enter point is the deleted element. -/
theorem c2_ignore_ep_returns_seed (h : Hnsw) (l : Graph) (q : Vec) (e : EId)
    (fuel : Nat) (hd : ∀ a b, 0 ≤ h.dist a b) (hf : 2 ≤ fuel) :
    h.searchLayerSingleIgnoreEp q (0, e) l fuel = some (some (0, e)) := by
  obtain ⟨f, rfl⟩ : ∃ f, fuel = f + 2 := ⟨fuel - 2, by omega⟩
  unfold Hnsw.searchLayerSingleIgnoreEp Hnsw.searchLayer
  show (Hnsw.searchLoop h q 1 l (f + 2) [(0, e)] [e] [(0, e)] 0).map qFirst =
    some (some (0, e))
  have step1 : Hnsw.searchLoop h q 1 l (f + 2) [(0, e)] [e] [(0, e)] 0 =
      some [((0 : Dist), e)] := by
    show (match qPopFirst [((0 : Dist), e)] with
      | none => some [((0 : Dist), e)]
      | some ((d, c), cand') =>
        if (0 : Dist) < d then some [((0 : Dist), e)]
        else
          match getEdges l c with
          | none => Hnsw.searchLoop h q 1 l (f + 1) cand' [e] [((0 : Dist), e)] 0
          | some es =>
            match es.foldlM (Hnsw.searchStep h q 1) (cand', [e], [((0 : Dist), e)], (0 : Dist)) with
            | none => none
            | some (cand2, vis2, w2, fd2) =>
              Hnsw.searchLoop h q 1 l (f + 1) cand2 vis2 w2 fd2) = some [((0 : Dist), e)]
    show (if (0 : Dist) < 0 then some [((0 : Dist), e)]
      else
        match getEdges l e with
        | none => Hnsw.searchLoop h q 1 l (f + 1) [] [e] [((0 : Dist), e)] 0
        | some es =>
          match es.foldlM (Hnsw.searchStep h q 1) ([], [e], [((0 : Dist), e)], (0 : Dist)) with
          | none => none
          | some (cand2, vis2, w2, fd2) =>
            Hnsw.searchLoop h q 1 l (f + 1) cand2 vis2 w2 fd2) = some [((0 : Dist), e)]
    rw [if_neg (lt_irrefl (0 : Dist))]
    cases hge : getEdges l e with
    | none =>
      show Hnsw.searchLoop h q 1 l (f + 1) [] [e] [((0 : Dist), e)] 0 = some [((0 : Dist), e)]
      rfl
    | some es =>
      obtain ⟨vis2, hfold⟩ := foldlM_searchStep_stable h q es [] [e] e hd
      dsimp only
      rw [hfold]
      rfl
  rw [step1]
  rfl

/-- Witness for C2 at a concrete input: the empty index with the
Manhattan metric, an empty layer, entry element 7. -/
theorem c2_ignore_ep_returns_seed_witness :
    (∀ a b, 0 ≤ (Hnsw.new 4 4 10 .simplePol manhattan []).dist a b) ∧ 2 ≤ 2 ∧
    (Hnsw.new 4 4 10 .simplePol manhattan []).searchLayerSingleIgnoreEp [] (0, 7) [] 2 =
      some (some (0, 7)) :=
  ⟨fun a b => manhattan_nonneg a b, le_refl 2,
    c2_ignore_ep_returns_seed (Hnsw.new 4 4 10 .simplePol manhattan []) [] [] 7 2
      (fun a b => manhattan_nonneg a b) (le_refl 2)⟩

/-- **C3.** The `DocId` round-trip fails on a recycled id: after
`resolve r1 = 0`, `remove r1` and `resolve r2`, the recycled id 0 is
returned but the record is pushed at slot 1, so `get (resolve r2)` is
`none` instead of `r2`. -/
theorem c3_docid_roundtrip_fails_after_recycle :
    ((((HnswDocs.empty.resolve 100).2.remove 100).2.resolve 200).1 = 0) ∧
    ((((HnswDocs.empty.resolve 100).2.remove 100).2.resolve 200).2.get
      ((((HnswDocs.empty.resolve 100).2.remove 100).2.resolve 200).1) = none) ∧
    ¬ (((((HnswDocs.empty.resolve 100).2.remove 100).2.resolve 200).2.get
      ((((HnswDocs.empty.resolve 100).2.remove 100).2.resolve 200).1)) = some 200) := by
  refine ⟨rfl, rfl, by decide⟩

/-- **C4 (counterexample).** On the two-element graph, `knn_search` with
`k = 2` and `efs = 1` returns a single result: the layer-0 search is
bounded by `efs`, so the result size is `min(k, |w|)`, not
`min(k, live_element_count) = 2`. -/
theorem c4_result_size_counterexample :
    ((twoElemH.bind fun h => h.knnSearch [0] 2 1 20).map List.length = some 1) ∧
    (twoElemH.map fun h => h.elements.length) = some 2 ∧
    ¬ (1 = Nat.min 2 2) := by
  refine ⟨rfl, rfl, by decide⟩

/-- **C6.** Removing an unknown target is a silent no-op:
`Hnsw::remove` of an `ElementId` absent from the element record returns
`false` leaving the state untouched, and `remove_document` of a record id
with no `DocId` mapping returns `Ok` leaving the state untouched. -/
theorem c6_unknown_removals_are_noops (h : Hnsw) (e fuel : Nat)
    (s : HnswIndex) (rid : Nat) (content : List (List Int)) (fuel2 : Nat)
    (he : alGet h.elements e = none)
    (hr : alGet s.docs.docIds rid = none) :
    h.remove e fuel = some (h, false) ∧
    s.removeDocument rid content fuel2 = some (s, true) := by
  constructor
  · unfold Hnsw.remove
    rw [he]
  · unfold HnswIndex.removeDocument HnswDocs.remove
    rw [hr]

/-- Witness for C6 at a concrete input. -/
theorem c6_unknown_removals_are_noops_witness :
    alGet (Hnsw.new 4 4 10 .simplePol manhattan []).elements 9 = none ∧
    alGet (HnswIndex.new 1 4 4 10 .simplePol manhattan []).docs.docIds 7 = none ∧
    ((Hnsw.new 4 4 10 .simplePol manhattan []).remove 9 5 =
      some (Hnsw.new 4 4 10 .simplePol manhattan [], false) ∧
     (HnswIndex.new 1 4 4 10 .simplePol manhattan []).removeDocument 7 [[1]] 5 =
      some (HnswIndex.new 1 4 4 10 .simplePol manhattan [], true)) :=
  ⟨rfl, rfl,
    c6_unknown_removals_are_noops (Hnsw.new 4 4 10 .simplePol manhattan []) 9 5
      (HnswIndex.new 1 4 4 10 .simplePol manhattan []) 7 [[1]] 5 rfl rfl⟩

/-- **C7.** `knn_search` on an index with no enter point returns an empty
result rather than an error, for every query, `k`, `efs` and fuel. -/
theorem c7_knn_search_no_enter_point_empty (h : Hnsw) (q : Vec) (k efs fuel : Nat)
    (hep : h.enterPoint = none) :
    h.knnSearch q k efs fuel = some [] := by
  unfold Hnsw.knnSearch
  rw [hep]

/-- Witness for C7 at a concrete input. -/
theorem c7_knn_search_no_enter_point_empty_witness :
    (Hnsw.new 4 4 10 .simplePol manhattan []).enterPoint = none ∧
    (Hnsw.new 4 4 10 .simplePol manhattan []).knnSearch [1] 5 3 20 = some [] :=
  ⟨rfl, c7_knn_search_no_enter_point_empty _ [1] 5 3 20 rfl⟩

/-! ### C8 and C9: the selection policies -/

/-- In a sorted candidate queue with pairwise distinct distances, every
entry after the head has a strictly larger distance, hence never a
smaller one. -/
theorem sorted_nodup_not_lt (d0 : Dist) (e0 : EId) (rest : Q)
    (hs : QSorted ((d0, e0) :: rest))
    (hd : (((d0, e0) :: rest).map Prod.fst).Nodup) :
    ∀ p ∈ rest, ¬ p.1 < d0 := by
  intro p hp
  have hle : qle (d0, e0) p := (List.sorted_cons.mp hs).1 p hp
  have hne : d0 ≠ p.1 := by
    have h1 : d0 ∉ rest.map Prod.fst := by
      simp only [List.map_cons, List.nodup_cons] at hd
      exact hd.1
    intro he
    exact h1 (he ▸ List.mem_map_of_mem Prod.fst hp)
  rcases hle with h | ⟨h, _⟩
  · exact fun hlt => absurd h (not_lt.mpr hlt.le)
  · exact absurd h hne

/-- Once the acceptance threshold is at or below every remaining
distance, the heuristic loop keeps nothing further. -/
theorem heuristicLoop_no_keep (m : Nat) :
    ∀ (cs : Q) (t : Dist) (r : List EId), (∀ p ∈ cs, ¬ p.1 < t) →
      heuristicLoop m cs (some t) r = r := by
  intro cs
  induction cs with
  | nil => intro t r _; rfl
  | cons p rest ih =>
    intro t r hno
    obtain ⟨d, e⟩ := p
    have h1 : ¬ d < t := hno (d, e) (List.mem_cons_self _ _)
    show (if thrLt d (some t) then _ else heuristicLoop m rest (some t) r) = r
    rw [if_neg (by simp [thrLt, h1])]
    exact ih t r fun p hp => hno p (List.mem_cons_of_mem _ hp)

/-- **C8.** With a non-empty candidate queue of pairwise distinct
distances and `m_max ≥ 1`, the Heuristic policy returns exactly one id:
the minimum-distance candidate (the head of the sorted queue, whose
distance bounds every other candidate). -/
theorem c8_heuristic_returns_single_min (d0 : Dist) (e0 : EId) (rest : Q)
    (m_max : Nat) (hs : QSorted ((d0, e0) :: rest))
    (hd : (((d0, e0) :: rest).map Prod.fst).Nodup) (hm : 1 ≤ m_max) :
    heuristic ((d0, e0) :: rest) m_max = [e0] ∧
    ∀ p ∈ (d0, e0) :: rest, d0 ≤ p.1 := by
  have hno := sorted_nodup_not_lt d0 e0 rest hs hd
  constructor
  · show (if thrLt d0 none then
        if m_max ≤ (hsInsert [] e0).length then hsInsert [] e0
        else heuristicLoop m_max rest (some d0) (hsInsert [] e0)
      else heuristicLoop m_max rest none []) = [e0]
    rw [if_pos (by simp [thrLt])]
    have he : hsInsert [] e0 = [e0] := rfl
    rw [he]
    by_cases h1 : m_max ≤ [e0].length
    · rw [if_pos h1]
    · rw [if_neg h1]
      exact heuristicLoop_no_keep m_max rest d0 [e0] hno
  · intro p hp
    rcases List.mem_cons.mp hp with h | h
    · exact le_of_eq (by rw [h])
    · exact le_of_not_lt (hno p h)

/-- Witness for C8 at a concrete input. -/
theorem c8_heuristic_returns_single_min_witness :
    QSorted [((1 : Dist), 10), (2, 20), (3, 30)] ∧
    (([((1 : Dist), 10), (2, 20), (3, 30)].map Prod.fst).Nodup) ∧ 1 ≤ 2 ∧
    (heuristic [((1 : Dist), 10), (2, 20), (3, 30)] 2 = [10] ∧
     ∀ p ∈ [((1 : Dist), 10), (2, 20), (3, 30)], (1 : Dist) ≤ p.1) :=
  ⟨by simp [QSorted, qle], by simp, by omega,
    c8_heuristic_returns_single_min 1 10 [(2, 20), (3, 30)] 2
      (by simp [QSorted, qle]) (by simp) (by omega)⟩

/-- Membership in a `HashSet::insert`. -/
theorem mem_hsInsert (x e : EId) (r : List EId) :
    x ∈ hsInsert r e ↔ x = e ∨ x ∈ r := by
  unfold hsInsert
  by_cases h : e ∈ r
  · rw [if_pos h]
    constructor
    · exact Or.inr
    · rintro (rfl | hx)
      · exact h
      · exact hx
  · rw [if_neg h]
    simp [or_comm]

/-- Membership in a fold of `HashSet::insert`s. -/
theorem mem_foldl_hsInsert (x : EId) :
    ∀ (l : List EId) (r : List EId), x ∈ l.foldl hsInsert r ↔ x ∈ r ∨ x ∈ l := by
  intro l
  induction l with
  | nil => simp
  | cons a as ih =>
    intro r
    rw [List.foldl_cons, ih, mem_hsInsert]
    simp
    tauto

/-- Once the threshold is at or below every remaining distance, the
keep-variant loop rejects everything, accumulating the ids in FIFO
order. -/
theorem heuristicKeepLoop_no_keep (m : Nat) :
    ∀ (cs : Q) (t : Dist) (r wd : List EId), (∀ p ∈ cs, ¬ p.1 < t) →
      heuristicKeepLoop m cs (some t) r wd = (r, wd ++ cs.map Prod.snd) := by
  intro cs
  induction cs with
  | nil => intro t r wd _; simp [heuristicKeepLoop]
  | cons p rest ih =>
    intro t r wd hno
    obtain ⟨d, e⟩ := p
    have h1 : ¬ d < t := hno (d, e) (List.mem_cons_self _ _)
    show (if thrLt d (some t) then _
      else heuristicKeepLoop m rest (some t) r (wd ++ [e])) = _
    rw [if_neg (by simp [thrLt, h1])]
    rw [ih t r (wd ++ [e]) fun p hp => hno p (List.mem_cons_of_mem _ hp)]
    simp

/-- **C9.** On a candidate queue of pairwise distinct distances with
`m_max ≥ 1`, the HeuristicKeep policy returns the same id set as the
Simple policy: the ids of the `m_max` smallest-distance candidates (the
heuristically kept minimum plus the first `m_max − 1` rejected
candidates). -/
theorem c9_heuristic_keep_eq_simple (c : Q) (m_max : Nat)
    (hs : QSorted c) (hd : (c.map Prod.fst).Nodup) (hm : 1 ≤ m_max) :
    (heuristicKeep c m_max).toFinset = (simple c m_max).toFinset := by
  apply List.toFinset.ext_iff.mpr
  intro x
  cases c with
  | nil =>
    simp [heuristicKeep, heuristicKeepLoop, simple]
  | cons p rest =>
    obtain ⟨d0, e0⟩ := p
    have hno := sorted_nodup_not_lt d0 e0 rest hs hd
    obtain ⟨mm, rfl⟩ : ∃ mm, m_max = mm + 1 := ⟨m_max - 1, by omega⟩
    have hsimple : simple ((d0, e0) :: rest) (mm + 1) =
        (e0 :: (rest.take mm).map Prod.snd).dedup := by
      unfold simple
      rw [List.take_succ_cons, List.map_cons]
    have hkeep1 : heuristicKeepLoop (mm + 1) ((d0, e0) :: rest) none [] [] =
        if mm + 1 ≤ 1 then ([e0], []) else ([e0], rest.map Prod.snd) := by
      show (if thrLt d0 none then
          if mm + 1 ≤ (hsInsert [] e0).length then (hsInsert [] e0, [])
          else heuristicKeepLoop (mm + 1) rest (some d0) (hsInsert [] e0) []
        else _) = _
      rw [if_pos (by simp [thrLt])]
      have he : hsInsert [] e0 = [e0] := rfl
      rw [he]
      by_cases h1 : mm + 1 ≤ 1
      · rw [if_pos (by simpa using h1), if_pos h1]
      · rw [if_neg (by simpa using h1), if_neg h1,
          heuristicKeepLoop_no_keep (mm + 1) rest d0 [e0] [] hno]
        simp

    unfold heuristicKeep
    rw [hkeep1]
    by_cases h1 : mm + 1 ≤ 1
    · have hmm : mm = 0 := by omega
      subst hmm
      rw [if_pos h1]
      simp only [List.length_cons, List.length_nil]
      rw [hsimple]
      simp [mem_foldl_hsInsert, List.mem_dedup]
    · rw [if_neg h1]
      rw [hsimple]
      rw [mem_foldl_hsInsert, List.mem_dedup]
      have hT : (rest.map Prod.snd).take (Nat.min ((mm + 1) - [e0].length)
          (rest.map Prod.snd).length) = (rest.map Prod.snd).take mm := by
        rw [List.take_eq_take]
        simp [Nat.min_assoc]
      rw [hT, ← List.map_take]
      simp

/-- Witness for C9 at a concrete input. -/
theorem c9_heuristic_keep_eq_simple_witness :
    QSorted [((1 : Dist), 10), (2, 20), (3, 30)] ∧
    (([((1 : Dist), 10), (2, 20), (3, 30)].map Prod.fst).Nodup) ∧ 1 ≤ 2 ∧
    (heuristicKeep [((1 : Dist), 10), (2, 20), (3, 30)] 2).toFinset =
      (simple [((1 : Dist), 10), (2, 20), (3, 30)] 2).toFinset :=
  ⟨by simp [QSorted, qle], by simp, by omega,
    c9_heuristic_keep_eq_simple [((1 : Dist), 10), (2, 20), (3, 30)] 2
      (by simp [QSorted, qle]) (by simp) (by omega)⟩

/-! ### C5: deduplication and the `VecDocs` ↔ element-record invariant -/

/-- `set` at one index leaves `getD` at another unchanged. -/
theorem getD_set_ne {α : Type} (ls : List α) (i j : Nat) (x d : α) (hne : i ≠ j) :
    (ls.set i x).getD j d = ls.getD j d := by
  induction ls generalizing i j with
  | nil => cases i <;> rfl
  | cons a t ih =>
    cases i with
    | zero =>
      cases j with
      | zero => exact absurd rfl hne
      | succ jj => rfl
    | succ ii =>
      cases j with
      | zero => rfl
      | succ jj =>
        show (t.set ii x).getD jj d = t.getD jj d
        exact ih ii jj fun hc => hne (by omega)

/-- `getD` of a `replicate` within range. -/
theorem getD_replicate {α : Type} (n i : Nat) (x d : α) (hi : i < n) :
    (List.replicate n x).getD i d = x := by
  induction n generalizing i with
  | zero => omega
  | succ k ih =>
    cases i with
    | zero => rfl
    | succ ii => exact ih ii (by omega)

/-- Appending at the end of a prefix: `getD` at the prefix length. -/
theorem getD_append_length {α : Type} (l : List α) (y : α) (t : List α) (d : α) :
    (l ++ y :: t).getD l.length d = y := by
  induction l with
  | nil => rfl
  | cons a as ih => exact ih

/-- `set` at the prefix length replaces the element right after the
prefix. -/
theorem set_append_length {α : Type} (l : List α) (y x : α) (t : List α) :
    (l ++ y :: t).set l.length x = l ++ x :: t := by
  induction l with
  | nil => rfl
  | cons a as ih => simp [List.set, ih]

/-- The layer fold of `insert_first_element` turns `n` empty layers into
`n` single-node layers. -/
theorem foldl_addEmpty_replicate (id : EId) :
    ∀ (n : Nat) (tail : List Graph),
      (List.range n).foldl (fun ls lc => ls.set lc (addEmptyNode (ls.getD lc []) id).1)
        (List.replicate n [] ++ tail) = List.replicate n [(id, [])] ++ tail := by
  intro n
  induction n with
  | zero => intro tail; simp
  | succ k ih =>
    intro tail
    rw [List.range_succ, List.foldl_append]
    have h1 : List.replicate (k + 1) ([] : Graph) ++ tail =
        List.replicate k [] ++ ([] :: tail) := by
      rw [List.replicate_succ' k]
      simp
    rw [h1, ih ([] :: tail)]
    simp only [List.foldl_cons, List.foldl_nil]
    have hget : (List.replicate k ([(id, [])] : Graph) ++ [] :: tail).getD k [] = [] := by
      have h2 := getD_append_length (List.replicate k ([(id, [])] : Graph)) ([] : Graph) tail []
      simpa using h2
    have hset : ∀ x : Graph, (List.replicate k ([(id, [])] : Graph) ++ [] :: tail).set k x =
        List.replicate k [(id, [])] ++ x :: tail := by
      intro x
      have h2 := set_append_length (List.replicate k ([(id, [])] : Graph)) ([] : Graph) x tail
      simpa using h2
    rw [hget, hset]
    show List.replicate k [(id, [])] ++ [(id, [])] :: tail =
      List.replicate (k + 1) [(id, [])] ++ tail
    rw [List.replicate_succ' k]
    simp

/-- The tail-free special case of the previous lemma. -/
theorem foldl_addEmpty_replicate0 (id : EId) (n : Nat) :
    (List.range n).foldl (fun ls lc => ls.set lc (addEmptyNode (ls.getD lc []) id).1)
      (List.replicate n []) = List.replicate n [(id, [])] := by
  have h := foldl_addEmpty_replicate id n []
  simpa using h

/-- `Hnsw::insert` on a fresh index: the first element gets id 0, the
layers `0..=lvl` hold it as an isolated node and it becomes the enter
point (for every drawn level and every policy/metric). -/
theorem hnsw_insert_on_new (m m0 efc : Nat) (pol : Policy)
    (dist : Vec → Vec → Dist) (lvl : Nat) (lvls : List Nat) (v : Vec) (fuel : Nat) :
    (Hnsw.new m m0 efc pol dist (lvl :: lvls)).insert v fuel =
      some ({ Hnsw.new m m0 efc pol dist lvls with
              layers := List.replicate (lvl + 1) [(0, [])],
              elements := [(0, v)], enterPoint := some 0, nextElementId := 1 }, 0) := by
  have h1 : (Hnsw.new m m0 efc pol dist (lvl :: lvls)).insert v fuel =
      some ({ Hnsw.new m m0 efc pol dist lvls with
              layers := (List.range (lvl + 1)).foldl
                (fun ls lc => ls.set lc (addEmptyNode (ls.getD lc []) 0).1)
                (List.replicate (lvl + 1) []),
              elements := [(0, v)], enterPoint := some 0, nextElementId := 1 }, 0) := rfl
  rw [h1, foldl_addEmpty_replicate0 0 (lvl + 1)]

/-- The entry-point replacement search on a layer where the seed has an
empty (or no live) neighborhood returns the seed (no nonnegativity
needed). -/
theorem ignoreEp_isolated (h : Hnsw) (q : Vec) (e : EId) (l : Graph) (fuel : Nat)
    (hge : getEdges l e = some []) (hf : 2 ≤ fuel) :
    h.searchLayerSingleIgnoreEp q (0, e) l fuel = some (some (0, e)) := by
  obtain ⟨f, rfl⟩ : ∃ f, fuel = f + 2 := ⟨fuel - 2, by omega⟩
  unfold Hnsw.searchLayerSingleIgnoreEp Hnsw.searchLayer
  show (Hnsw.searchLoop h q 1 l (f + 2) [(0, e)] [e] [(0, e)] 0).map qFirst =
    some (some (0, e))
  have step1 : Hnsw.searchLoop h q 1 l (f + 2) [(0, e)] [e] [(0, e)] 0 =
      some [((0 : Dist), e)] := by
    show (if (0 : Dist) < 0 then some [((0 : Dist), e)]
      else
        match getEdges l e with
        | none => Hnsw.searchLoop h q 1 l (f + 1) [] [e] [((0 : Dist), e)] 0
        | some es =>
          match es.foldlM (Hnsw.searchStep h q 1) ([], [e], [((0 : Dist), e)], (0 : Dist)) with
          | none => none
          | some (cand2, vis2, w2, fd2) =>
            Hnsw.searchLoop h q 1 l (f + 1) cand2 vis2 w2 fd2) = some [((0 : Dist), e)]
    rw [if_neg (lt_irrefl (0 : Dist)), hge]
    rfl
  rw [step1]
  rfl

/-- The per-layer removal loop when the removed element is isolated on
every listed layer: it always succeeds, only the layers change, and the
removed flag is raised iff some layer was listed. -/
theorem removeLoop_isolated (e fuel : Nat) :
    ∀ (lcs : List Nat) (h : Hnsw) (b : Bool),
      (∀ lc ∈ lcs, h.layers.getD lc [] = [(e, [])]) → lcs.Nodup →
      ∃ L, Hnsw.removeLoop e fuel lcs h b =
        some ({ h with layers := L }, b || !lcs.isEmpty) := by
  intro lcs
  induction lcs with
  | nil =>
    intro h b _ _
    exact ⟨h.layers, by simp [Hnsw.removeLoop]⟩
  | cons lc rest ih =>
    intro h b hiso hnd
    have hlc : h.layers.getD lc [] = [(e, [])] := hiso lc (List.mem_cons_self _ _)
    have hrn : removeNode (h.layers.getD lc []) e = some ([], []) := by
      rw [hlc]
      show removeNode [(e, [])] e = some ([], [])
      unfold removeNode
      simp [alGet, alErase]
    have hstep : Hnsw.removeLoop e fuel (lc :: rest) h b =
        Hnsw.removeLoop e fuel rest { h with layers := h.layers.set lc [] } true := by
      show (match removeNode (h.layers.getD lc []) e with
        | none => Hnsw.removeLoop e fuel rest h b
        | some (f_ids, layer1) =>
          match Hnsw.rewireLoop e lc (if lc = 0 then h.m0 else h.m) fuel
              { h with layers := h.layers.set lc layer1 } f_ids with
          | none => none
          | some h1 => Hnsw.removeLoop e fuel rest h1 true) = _
      rw [hrn]
      rfl
    have hiso2 : ∀ lc2 ∈ rest,
        ({ h with layers := h.layers.set lc [] } : Hnsw).layers.getD lc2 [] = [(e, [])] := by
      intro lc2 h2
      have hne : lc ≠ lc2 := fun hc => (List.nodup_cons.mp hnd).1 (hc ▸ h2)
      show (h.layers.set lc []).getD lc2 [] = [(e, [])]
      rw [getD_set_ne h.layers lc lc2 [] [] hne]
      exact hiso lc2 (List.mem_cons_of_mem _ h2)
    obtain ⟨L, hL⟩ := ih { h with layers := h.layers.set lc [] } true hiso2
      (List.nodup_cons.mp hnd).2
    refine ⟨L, ?_⟩
    rw [hstep, hL]
    simp

/-- `Hnsw::remove` of the unique, isolated element: it succeeds, empties
the element record and keeps the (now dangling) enter point; only the
layers change otherwise. -/
theorem hnsw_remove_isolated (h : Hnsw) (e : EId) (v : Vec) (fuel : Nat)
    (he : h.elements = [(e, v)]) (hep : h.enterPoint = some e)
    (hl : ∀ lc, lc < h.layers.length → h.layers.getD lc [] = [(e, [])])
    (hlen : 1 ≤ h.layers.length) (hf : 2 ≤ fuel) :
    ∃ L, h.remove e fuel =
      some ({ h with elements := [], enterPoint := some e, layers := L }, true) := by
  have hget : alGet h.elements e = some v := by simp [he, alGet]
  have hlayer : getEdges (h.layers.getD (h.layers.length - 1) []) e = some [] := by
    rw [hl (h.layers.length - 1) (by omega)]
    simp [getEdges, alGet]
  have hsearch := ignoreEp_isolated h v e (h.layers.getD (h.layers.length - 1) []) fuel
    hlayer hf
  have herase : alErase h.elements e = [] := by simp [he, alErase]
  have hiso : ∀ lc ∈ (List.range h.layers.length).reverse,
      ({ h with elements := alErase h.elements e } : Hnsw).layers.getD lc [] = [(e, [])] := by
    intro lc hmem
    exact hl lc (List.mem_range.mp (List.mem_reverse.mp hmem))
  obtain ⟨L, hLoop⟩ := removeLoop_isolated e fuel (List.range h.layers.length).reverse
    { h with elements := alErase h.elements e } false hiso
    (List.nodup_reverse.mpr (List.nodup_range _))
  refine ⟨L, ?_⟩
  rw [herase] at hLoop
  dsimp only at hLoop
  have hflag : (false || !((List.range h.layers.length).reverse).isEmpty) = true := by
    have h3 : (List.range h.layers.length).reverse ≠ [] := by
      intro hc
      have h5 : (List.range h.layers.length).reverse.length = 0 := by rw [hc]; rfl
      rw [List.length_reverse, List.length_range] at h5
      omega
    cases hc : (List.range h.layers.length).reverse with
    | nil => exact absurd hc h3
    | cons a t => rfl
  rw [hflag] at hLoop
  unfold Hnsw.remove
  rw [hget]
  dsimp only
  rw [if_pos hep, hsearch]
  dsimp only
  rw [herase]
  rw [hLoop]
  dsimp only
  rw [if_pos ⟨rfl, hep⟩]
  rfl

/-- Lookup in a singleton association list at its key. -/
theorem alGet_single {κ α : Type} [DecidableEq κ] (k : κ) (a : α) :
    alGet [(k, a)] k = some a := by simp [alGet]

/-- A successful lookup in a singleton association list pins both the key
and the value. -/
theorem alGet_single_inv {κ α : Type} [DecidableEq κ] {k k' : κ} {a b : α}
    (h : alGet [(k, a)] k' = some b) : k' = k ∧ b = a := by
  by_cases hkk : k' = k
  · refine ⟨hkk, ?_⟩
    rw [hkk] at h
    rw [alGet_single] at h
    exact (Option.some_injective _ h).symm
  · exfalso
    unfold alGet at h
    rw [if_neg hkk] at h
    exact Option.noConfusion h

/-- Replacement in a singleton association list at its key. -/
theorem alSet_single {κ α : Type} [DecidableEq κ] (k : κ) (a b : α) :
    alSet [(k, a)] k b = [(k, b)] := by simp [alSet]

/-- Erasure of a singleton association list at its key. -/
theorem alErase_single {κ α : Type} [DecidableEq κ] (k : κ) (a : α) :
    alErase [(k, a)] k = [] := by simp [alErase]

/-- Erasing the old doc id from the two-doc set leaves the other doc. -/
theorem orderedInsert_erase (d1 d2 : Nat) (hne : d1 ≠ d2) :
    (List.orderedInsert (· ≤ ·) d2 [d1]).erase d1 = [d2] := by
  by_cases hle : d2 ≤ d1
  · rw [List.orderedInsert, if_pos hle]
    rw [List.erase_cons, if_neg (by simpa using Ne.symm hne)]
    rw [List.erase_cons, if_pos (by simp)]
  · rw [List.orderedInsert, if_neg hle]
    rw [List.erase_cons, if_pos (by simp)]
    rfl

/-- The `VecDocs` ↔ element-record correspondence of I7: every entry
points at a live element and every live element is pointed at. -/
def vdIff (s : HnswIndex) : Prop :=
  (∀ w p, alGet s.vecDocs w = some p → p.2 ∈ alKeys s.hnsw.elements) ∧
  (∀ e, e ∈ alKeys s.hnsw.elements → ∃ w ds, alGet s.vecDocs w = some (ds, e))

/-- The HNSW state after the first insert of `v` at level `lvl` into a
fresh index. -/
def firstH (m m0 efc : Nat) (pol : Policy) (dist : Vec → Vec → Dist)
    (lvl : Nat) (v : Vec) : Hnsw :=
  { m := m, m0 := m0, efc := efc,
    layers := List.replicate (lvl + 1) [(0, [])],
    enterPoint := some 0, elements := [(0, v)], nextElementId := 1,
    policy := pol, dist := dist, rngLevels := [] }

/-- **C5.** From the empty index (for every parameters, policy, metric,
drawn level and fuel ≥ 2): inserting the same vector under two distinct
doc ids creates exactly one element and does not touch the HNSW graph a
second time; removing one doc id keeps the element and the `VecDocs`
entry; removing the last doc id erases the entry and removes the element
from the element record, and the `VecDocs` ↔ element-record
correspondence holds at every stage. -/
theorem c5_dedup_and_vecdocs_iff (dim m m0 efc : Nat) (pol : Policy)
    (dist : Vec → Vec → Dist) (lvl : Nat) (v : Vec) (d1 d2 fuel : Nat)
    (hne : d1 ≠ d2) (hf : 2 ≤ fuel) :
    ∃ s1 s2 s3 s4,
      (HnswIndex.new dim m m0 efc pol dist [lvl]).insert v d1 fuel = some s1 ∧
      s1.insert v d2 fuel = some s2 ∧
      s2.remove v d1 fuel = some s3 ∧
      s3.remove v d2 fuel = some s4 ∧
      s2.hnsw = s1.hnsw ∧
      s2.hnsw.elements = [(0, v)] ∧
      (∃ ds, s2.vecDocs = [(v, (ds, 0))] ∧ d1 ∈ ds ∧ d2 ∈ ds) ∧
      s3.hnsw = s2.hnsw ∧ s3.vecDocs = [(v, ([d2], 0))] ∧
      s4.vecDocs = [] ∧ s4.hnsw.elements = [] ∧
      vdIff s1 ∧ vdIff s2 ∧ vdIff s3 ∧ vdIff s4 := by
  have hne' : d2 ≠ d1 := fun hc => hne hc.symm
  let ds2 : List DocId := List.orderedInsert (· ≤ ·) d2 [d1]
  let S1 : HnswIndex := ⟨dim, firstH m m0 efc pol dist lvl v, HnswDocs.empty, [(v, ([d1], 0))]⟩
  let S2 : HnswIndex := ⟨dim, firstH m m0 efc pol dist lvl v, HnswDocs.empty, [(v, (ds2, 0))]⟩
  let S3 : HnswIndex := ⟨dim, firstH m m0 efc pol dist lvl v, HnswDocs.empty, [(v, ([d2], 0))]⟩
  -- step 1: first insert of a fresh vector
  have h1 : (HnswIndex.new dim m m0 efc pol dist [lvl]).insert v d1 fuel =
      some S1 := by
    have hstep : (HnswIndex.new dim m m0 efc pol dist [lvl]).insert v d1 fuel =
        ((Hnsw.new m m0 efc pol dist [lvl]).insert v fuel).map fun he =>
          { dim := dim, hnsw := he.1, docs := HnswDocs.empty,
            vecDocs := alSet [] v ([d1], he.2) } := rfl
    rw [hstep, hnsw_insert_on_new]
    rfl
  -- step 2: duplicate insert only touches the doc-set
  have h2 : S1.insert v d2 fuel = some S2 := by
    unfold HnswIndex.insert
    have hg : alGet S1.vecDocs v = some ([d1], 0) := alGet_single v ([d1], 0)
    rw [hg]
    dsimp only
    have hins : idsInsert [d1] d2 = some ds2 := by
      unfold idsInsert
      rw [if_neg (by simpa using hne')]
    rw [hins]
    dsimp only
    rw [alSet_single]
  -- step 3: removing one of the two docs keeps the entry and the graph
  have h3 : S2.remove v d1 fuel = some S3 := by
    unfold HnswIndex.remove
    have hg : alGet S2.vecDocs v = some (ds2, 0) := alGet_single v (ds2, 0)
    rw [hg]
    dsimp only
    have hrm : idsRemove ds2 d1 = some [d2] := by
      unfold idsRemove
      rw [if_pos (show d1 ∈ ds2 by
        show d1 ∈ List.orderedInsert (· ≤ ·) d2 [d1]
        rw [List.mem_orderedInsert]
        simp)]
      show some ((List.orderedInsert (· ≤ ·) d2 [d1]).erase d1) = some [d2]
      rw [orderedInsert_erase d1 d2 hne]
    rw [hrm]
    dsimp only
    rw [if_neg (by simp)]
    rw [alSet_single]
  -- step 4: removing the last doc erases the entry and the element
  obtain ⟨L, hrem⟩ := hnsw_remove_isolated (firstH m m0 efc pol dist lvl v) 0 v fuel rfl rfl
    (fun lc hlc => getD_replicate (lvl + 1) lc [(0, [])] []
      (by simpa [firstH] using hlc)) (by simp [firstH]) hf
  have h4 : S3.remove v d2 fuel =
      some ⟨dim, { firstH m m0 efc pol dist lvl v with elements := [], enterPoint := some 0, layers := L }, HnswDocs.empty, []⟩ := by
    unfold HnswIndex.remove
    have hg : alGet S3.vecDocs v = some ([d2], 0) := alGet_single v ([d2], 0)
    rw [hg]
    dsimp only
    have hrm : idsRemove [d2] d2 = some [] := by
      unfold idsRemove
      rw [if_pos (by simp)]
      simp
    rw [hrm]
    dsimp only
    rw [if_pos (by simp)]
    show ((firstH m m0 efc pol dist lvl v).remove 0 fuel).map _ = _
    rw [hrem, Option.map_some']
    dsimp only
    rw [alErase_single]
  refine ⟨S1, S2, S3, _, h1, h2, h3, h4, rfl, rfl, ⟨ds2, rfl, ?_, ?_⟩, rfl, rfl,
    rfl, rfl, ?_, ?_, ?_, ?_⟩
  · show d1 ∈ List.orderedInsert (· ≤ ·) d2 [d1]
    rw [List.mem_orderedInsert]
    simp
  · show d2 ∈ List.orderedInsert (· ≤ ·) d2 [d1]
    rw [List.mem_orderedInsert]
    simp
  · constructor
    · intro w p hget
      obtain ⟨-, hp⟩ := alGet_single_inv hget
      rw [hp]
      show (0 : EId) ∈ alKeys (firstH m m0 efc pol dist lvl v).elements
      simp [alKeys, firstH]
    · intro e he
      have he' : e ∈ alKeys (firstH m m0 efc pol dist lvl v).elements := he
      have he0 : e = 0 := by simpa [alKeys, firstH] using he'
      exact ⟨v, [d1], by rw [he0]; exact alGet_single v ([d1], 0)⟩
  · constructor
    · intro w p hget
      obtain ⟨-, hp⟩ := alGet_single_inv hget
      rw [hp]
      show (0 : EId) ∈ alKeys (firstH m m0 efc pol dist lvl v).elements
      simp [alKeys, firstH]
    · intro e he
      have he' : e ∈ alKeys (firstH m m0 efc pol dist lvl v).elements := he
      have he0 : e = 0 := by simpa [alKeys, firstH] using he'
      exact ⟨v, ds2, by rw [he0]; exact alGet_single v (ds2, 0)⟩
  · constructor
    · intro w p hget
      obtain ⟨-, hp⟩ := alGet_single_inv hget
      rw [hp]
      show (0 : EId) ∈ alKeys (firstH m m0 efc pol dist lvl v).elements
      simp [alKeys, firstH]
    · intro e he
      have he' : e ∈ alKeys (firstH m m0 efc pol dist lvl v).elements := he
      have he0 : e = 0 := by simpa [alKeys, firstH] using he'
      exact ⟨v, [d2], by rw [he0]; exact alGet_single v ([d2], 0)⟩
  · constructor
    · intro w p hget
      exact absurd hget (by simp [alGet])
    · intro e he
      exact absurd he (by simp [alKeys])

/-- Witness for C5 at a concrete input (dimension 1, level 2, docs 3 and
5, Manhattan metric). -/
theorem c5_dedup_and_vecdocs_iff_witness :
    ((3 : Nat) ≠ 5) ∧ (2 ≤ 20) ∧
    (∃ s1 s2 s3 s4,
      (HnswIndex.new 1 4 4 10 .simplePol manhattan [2]).insert [7] 3 20 = some s1 ∧
      s1.insert [7] 5 20 = some s2 ∧
      s2.remove [7] 3 20 = some s3 ∧
      s3.remove [7] 5 20 = some s4 ∧
      s2.hnsw = s1.hnsw ∧
      s2.hnsw.elements = [(0, [7])] ∧
      (∃ ds, s2.vecDocs = [([7], (ds, 0))] ∧ 3 ∈ ds ∧ 5 ∈ ds) ∧
      s3.hnsw = s2.hnsw ∧ s3.vecDocs = [([7], ([5], 0))] ∧
      s4.vecDocs = [] ∧ s4.hnsw.elements = [] ∧
      vdIff s1 ∧ vdIff s2 ∧ vdIff s3 ∧ vdIff s4) :=
  ⟨by decide, by decide,
    c5_dedup_and_vecdocs_iff 1 4 4 10 .simplePol manhattan 2 [7] 3 5 20
      (by decide) (by decide)⟩

/-! ### C10: no rollback in `index_document` -/

/-- Lookup after insert-or-replace at the same key. -/
theorem alGet_alSet_self {κ α : Type} [DecidableEq κ] :
    ∀ (l : List (κ × α)) (k : κ) (a : α), alGet (alSet l k a) k = some a := by
  intro l
  induction l with
  | nil => intro k a; simp [alSet, alGet]
  | cons p t ih =>
    intro k a
    obtain ⟨k0, a0⟩ := p
    unfold alSet
    by_cases hk : k = k0
    · rw [if_pos hk]
      simp [alGet]
    · rw [if_neg hk]
      unfold alGet
      rw [if_neg hk]
      exact ih k a

/-- After `resolve`, the record is mapped to the returned `DocId` in the
trie. -/
theorem resolve_maps (d : HnswDocs) (rid : Nat) :
    alGet (d.resolve rid).2.docIds rid = some (d.resolve rid).1 := by
  unfold HnswDocs.resolve
  cases hg : alGet d.docIds rid with
  | some id =>
    dsimp only
    exact hg
  | none =>
    dsimp only
    exact alGet_alSet_self _ rid _

/-- `HnswIndex::insert` never touches the doc map or the dimension. -/
theorem insert_keeps_docs (s : HnswIndex) (o : Vec) (d : DocId) (fuel : Nat)
    (s2 : HnswIndex) (h : s.insert o d fuel = some s2) :
    s2.docs = s.docs ∧ s2.dim = s.dim := by
  unfold HnswIndex.insert at h
  cases hg : alGet s.vecDocs o with
  | some p =>
    rw [hg] at h
    obtain ⟨docs, eid⟩ := p
    dsimp only at h
    cases hi : idsInsert docs d with
    | some nd =>
      rw [hi] at h
      injection h with h
      rw [← h]
      exact ⟨rfl, rfl⟩
    | none =>
      rw [hi] at h
      injection h with h
      rw [← h]
      exact ⟨rfl, rfl⟩
  | none =>
    rw [hg] at h
    cases hh : s.hnsw.insert o fuel with
    | none =>
      rw [hh] at h
      exact Option.noConfusion h
    | some he =>
      rw [hh, Option.map_some'] at h
      injection h with h
      rw [← h]
      exact ⟨rfl, rfl⟩

/-- The `index_document` loop applies the successful prefix inserts and
stops at the first bad value, returning the error without undoing
anything. -/
theorem indexDocLoop_stops_at_bad (docId fuel : Nat) (bad : List Int)
    (rest : List (List Int)) :
    ∀ (good : List (List Int)) (s s2 : HnswIndex),
      (∀ v ∈ good, v.length = s.dim) → bad.length ≠ s.dim →
      List.foldlM (fun t v => t.insert v docId fuel) s good = some s2 →
      HnswIndex.indexDocLoop docId fuel (good ++ bad :: rest) s = some (s2, false) ∧
      s2.dim = s.dim ∧ s2.docs = s.docs := by
  intro good
  induction good with
  | nil =>
    intro s s2 _ hb hf
    injection hf with hf
    subst hf
    refine ⟨?_, rfl, rfl⟩
    show HnswIndex.indexDocLoop docId fuel (bad :: rest) s = some (s, false)
    unfold HnswIndex.indexDocLoop
    have hc : HnswIndex.checkValue s.dim bad = none := by
      unfold HnswIndex.checkValue
      rw [if_neg hb]
    rw [hc]
  | cons g gs ih =>
    intro s s2 hgood hb hf
    rw [List.foldlM_cons] at hf
    cases hi : s.insert g docId fuel with
    | none =>
      rw [hi] at hf
      exact Option.noConfusion hf
    | some s1 =>
      rw [hi] at hf
      obtain ⟨hdocs, hdim⟩ := insert_keeps_docs s g docId fuel s1 hi
      have hgood1 : ∀ v ∈ gs, v.length = s1.dim := by
        intro v hv
        rw [hdim]
        exact hgood v (List.mem_cons_of_mem _ hv)
      have hb1 : bad.length ≠ s1.dim := by
        rw [hdim]
        exact hb
      obtain ⟨hloop, hd2, hdo2⟩ := ih s1 s2 hgood1 hb1 hf
      refine ⟨?_, by rw [hd2, hdim], by rw [hdo2, hdocs]⟩
      show HnswIndex.indexDocLoop docId fuel (g :: (gs ++ bad :: rest)) s = some (s2, false)
      unfold HnswIndex.indexDocLoop
      have hc : HnswIndex.checkValue s.dim g = some g := by
        unfold HnswIndex.checkValue
        rw [if_pos (hgood g (List.mem_cons_self _ _))]
      rw [hc]
      dsimp only
      rw [hi]
      exact hloop

/-- **C10.** `index_document` does not roll back on error: if the values
split as `good ++ bad :: rest` with every `good` value dimension-correct
and `bad` not, and the prefix inserts succeed producing `s2`, then the
call returns the error with exactly the state `s2` — the record keeps the
`DocId` resolved at the start of the call and the vectors built from the
good prefix remain indexed. -/
theorem c10_index_document_no_rollback (s : HnswIndex) (rid : Nat)
    (good : List (List Int)) (bad : List Int) (rest : List (List Int))
    (fuel : Nat) (s2 : HnswIndex)
    (hg : ∀ v ∈ good, v.length = s.dim)
    (hb : bad.length ≠ s.dim)
    (hins : List.foldlM (fun t v => t.insert v (s.docs.resolve rid).1 fuel)
      ({ s with docs := (s.docs.resolve rid).2 }) good = some s2) :
    s.indexDocument rid (good ++ bad :: rest) fuel = some (s2, false) ∧
    alGet s2.docs.docIds rid = some (s.docs.resolve rid).1 := by
  obtain ⟨hloop, -, hdocs⟩ := indexDocLoop_stops_at_bad (s.docs.resolve rid).1 fuel bad rest
    good { s with docs := (s.docs.resolve rid).2 } s2 hg hb hins
  refine ⟨hloop, ?_⟩
  have hd : s2.docs = (s.docs.resolve rid).2 := hdocs
  rw [hd]
  exact resolve_maps s.docs rid

/-- The state produced by the two good inserts of the C10 witness run. -/
def c10FoldState : HnswIndex :=
  (List.foldlM
    (fun t v => HnswIndex.insert t v
      (((HnswIndex.new 1 4 4 10 .simplePol manhattan [0, 0, 0]).docs.resolve 42).1) 20)
    { HnswIndex.new 1 4 4 10 .simplePol manhattan [0, 0, 0] with
      docs := ((HnswIndex.new 1 4 4 10 .simplePol manhattan [0, 0, 0]).docs.resolve 42).2 }
    [[1], [2]]).getD (HnswIndex.new 1 4 4 10 .simplePol manhattan [0, 0, 0])

/-- Witness for C10 at a concrete input: two good vectors, then a
dimension mismatch, then one more (never processed) value. -/
theorem c10_index_document_no_rollback_witness :
    (∀ v ∈ [[(1 : Int)], [2]],
      List.length v = (HnswIndex.new 1 4 4 10 .simplePol manhattan [0, 0, 0]).dim) ∧
    List.length [(5 : Int), 6] ≠ (HnswIndex.new 1 4 4 10 .simplePol manhattan [0, 0, 0]).dim ∧
    (List.foldlM
      (fun t v => HnswIndex.insert t v
        (((HnswIndex.new 1 4 4 10 .simplePol manhattan [0, 0, 0]).docs.resolve 42).1) 20)
      { HnswIndex.new 1 4 4 10 .simplePol manhattan [0, 0, 0] with
        docs := ((HnswIndex.new 1 4 4 10 .simplePol manhattan [0, 0, 0]).docs.resolve 42).2 }
      [[1], [2]] = some c10FoldState) ∧
    ((HnswIndex.new 1 4 4 10 .simplePol manhattan [0, 0, 0]).indexDocument 42
        [[1], [2], [5, 6], [3]] 20 = some (c10FoldState, false) ∧
     alGet c10FoldState.docs.docIds 42 =
      some (((HnswIndex.new 1 4 4 10 .simplePol manhattan [0, 0, 0]).docs.resolve 42).1)) :=
  ⟨by decide, by decide, rfl,
    c10_index_document_no_rollback (HnswIndex.new 1 4 4 10 .simplePol manhattan [0, 0, 0])
      42 [[1], [2]] [5, 6] [[3]] 20 c10FoldState (by decide) (by decide) rfl⟩

/-! ### C4: the result-size law for `knn_search`

The counterexample above shows the unconditional law fails.  The amended
law is proved below: when `efs` is at least the live element count and
the live-restricted layer-0 graph is connected, the layer-0 search visits
exactly the live elements, so `knn_search` returns `min(k, live)`
results.  The development needs a breadth-first-search invariant for
`search_layer` plus a generic termination bound. -/

/-- Membership after a queue push. -/
theorem mem_qPush (p : QEntry) (q : Q) (d : Dist) (e : EId) :
    p ∈ qPush q d e ↔ p = (d, e) ∨ p ∈ q := List.mem_orderedInsert qle

/-- Push preserves sortedness. -/
theorem QSorted.push {q : Q} (h : QSorted q) (d : Dist) (e : EId) :
    QSorted (qPush q d e) := List.Sorted.orderedInsert (d, e) q h

/-- Push as a multiset cons. -/
theorem qPush_coe (q : Q) (d : Dist) (e : EId) :
    ((qPush q d e : Q) : Multiset QEntry) = (d, e) ::ₘ (q : Multiset QEntry) :=
  Multiset.coe_eq_coe.mpr (List.perm_orderedInsert qle (d, e) q)

/-- The ids of a push, up to permutation. -/
theorem idsQ_push_perm (q : Q) (d : Dist) (e : EId) :
    List.Perm (idsQ (qPush q d e)) (e :: idsQ q) :=
  (List.perm_orderedInsert qle (d, e) q).map Prod.snd

/-- A pushed queue is never empty. -/
theorem qPush_ne_nil (q : Q) (d : Dist) (e : EId) : qPush q d e ≠ [] := by
  intro hc
  have h2 : (qPush q d e).length = q.length + 1 := List.orderedInsert_length qle q (d, e)
  rw [hc] at h2
  simp at h2

/-- Length of a push. -/
theorem qPush_length (q : Q) (d : Dist) (e : EId) :
    (qPush q d e).length = q.length + 1 := List.orderedInsert_length qle q (d, e)

/-- The maximum entry bounds every entry of a sorted queue. -/
theorem sorted_le_last {w : Q} (hs : QSorted w) {p lst : QEntry}
    (hp : p ∈ w) (hl : qLast w = some lst) : p.1 ≤ lst.1 := by
  induction w with
  | nil => cases hp
  | cons a t ih =>
    cases t with
    | nil =>
      have ha : lst = a := by
        have : qLast [a] = some a := rfl
        rw [this] at hl
        exact (Option.some_injective _ hl).symm
      have hpa : p = a := by simpa using hp
      rw [ha, hpa]
    | cons b t2 =>
      have hl2 : qLast (b :: t2) = some lst := by
        rw [← hl]
        exact (List.getLast?_cons_cons).symm
      rcases List.mem_cons.mp hp with hpa | hpt
      · have hlst_mem : lst ∈ b :: t2 := by
          obtain ⟨hne, rfl⟩ := List.mem_getLast?_eq_getLast hl2
          exact List.getLast_mem hne
        have hle : qle a lst := (List.sorted_cons.mp hs).1 lst hlst_mem
        rw [hpa]
        rcases hle with h | ⟨h, _⟩
        · exact le_of_lt h
        · exact le_of_eq h
      · exact ih (List.sorted_cons.mp hs).2 hpt hl2

/-- A key is absent from an association list iff the lookup fails. -/
theorem alGet_eq_none_iff {κ α : Type} [DecidableEq κ] :
    ∀ (l : List (κ × α)) (k : κ), alGet l k = none ↔ k ∉ alKeys l := by
  intro l
  induction l with
  | nil => intro k; simp [alGet, alKeys]
  | cons p t ih =>
    intro k
    obtain ⟨k0, a0⟩ := p
    unfold alGet
    by_cases hk : k = k0
    · rw [if_pos hk]
      simp [alKeys, hk]
    · rw [if_neg hk]
      rw [ih k]
      simp [alKeys, hk]

/-- A key is present in an association list iff the lookup succeeds. -/
theorem alGet_isSome_iff {κ α : Type} [DecidableEq κ] (l : List (κ × α)) (k : κ) :
    (alGet l k).isSome = true ↔ k ∈ alKeys l := by
  rw [← not_iff_not]
  rw [Option.not_isSome_iff_eq_none, alGet_eq_none_iff]

/-- Count of not-yet-visited live elements; the termination measure of
the search loop is `|candidates| + 2 · notVis`. -/
def notVis (live vis : List EId) : Nat := (live.filter (fun x => x ∉ vis)).length

/-- Visiting any id never increases `notVis`. -/
theorem notVis_cons_le (live vis : List EId) (e : EId) :
    notVis live (e :: vis) ≤ notVis live vis := by
  unfold notVis
  apply List.Sublist.length_le
  apply List.monotone_filter_right
  intro x hx
  simp only [decide_eq_true_eq, List.mem_cons] at hx ⊢
  intro hc
  exact hx (Or.inr hc)

/-- Visiting a fresh live id strictly decreases `notVis`. -/
theorem notVis_cons_lt (live vis : List EId) (e : EId) (hnd : live.Nodup)
    (he : e ∈ live) (hv : e ∉ vis) :
    notVis live (e :: vis) + 1 ≤ notVis live vis := by
  unfold notVis
  induction live with
  | nil => cases he
  | cons a t ih =>
    rw [List.filter_cons, List.filter_cons]
    rcases List.mem_cons.mp he with rfl | het
    · have hnt : e ∉ t := (List.nodup_cons.mp hnd).1
      have h3 : t.filter (fun x => decide (x ∉ e :: vis)) =
          t.filter (fun x => decide (x ∉ vis)) := by
        apply List.filter_congr
        intro x hx
        have hxe : x ≠ e := fun hc => hnt (hc ▸ hx)
        simp [hxe]
      have h1 : (decide (e ∉ e :: vis)) = false := by simp
      have h2 : (decide (e ∉ vis)) = true := by simpa using hv
      rw [h1, h2]
      simp only [Bool.false_eq_true, if_false, if_true, h3, List.length_cons]
      omega
    · have ih2 := ih (List.nodup_cons.mp hnd).2 het
      by_cases ha : a ∈ e :: vis
      · have hA : (decide (a ∉ e :: vis)) = false := by
          simp only [decide_eq_false_iff_not, not_not]
          exact ha
        rw [hA]
        by_cases hb : a ∈ vis
        · have hB : (decide (a ∉ vis)) = false := by simpa using hb
          rw [hB]
          simp only [Bool.false_eq_true, if_false]
          omega
        · have hB : (decide (a ∉ vis)) = true := by simpa using hb
          rw [hB]
          simp only [Bool.false_eq_true, if_false, if_true, List.length_cons]
          omega
      · have hA : (decide (a ∉ e :: vis)) = true := by simpa using ha
        have hb : a ∉ vis := fun hc => ha (List.mem_cons_of_mem _ hc)
        have hB : (decide (a ∉ vis)) = true := by simpa using hb
        rw [hA, hB]
        simp only [if_true, List.length_cons]
        omega

/-- Reachability from `x` through live elements along the stored edges of
a layer: each step goes to a live neighbor of the current element. -/
inductive LiveReach (els : List (EId × Vec)) (g : Graph) : EId → EId → Prop where
  | refl (x : EId) : LiveReach els g x x
  | step {x y z : EId} : LiveReach els g x y → z ∈ edgesD g y →
      z ∈ alKeys els → LiveReach els g x z

/-- Every element live-reachable from a live member of a visited set that
is closed under live-element edges stays in the set. -/
theorem LiveReach.mem_closed {els : List (EId × Vec)} {g : Graph}
    {V : List EId} {x z : EId}
    (hx : x ∈ V) (hxl : x ∈ alKeys els)
    (hcl : ∀ v ∈ V, v ∈ alKeys els → ∀ u ∈ edgesD g v, u ∈ V)
    (hr : LiveReach els g x z) : z ∈ V ∧ z ∈ alKeys els := by
  induction hr with
  | refl => exact ⟨hx, hxl⟩
  | step hr he hz ih => exact ⟨hcl _ ih.1 ih.2 _ he, hz⟩

/-- `qPopLast` on a non-empty queue pops the maximum, leaving the
`dropLast`. -/
theorem qPopLast_of_ne_nil (w : Q) (hw : w ≠ []) :
    ∃ x, qPopLast w = some (x, w.dropLast) ∧ qLast w = some x := by
  obtain ⟨x, hx⟩ : ∃ x, w.getLast? = some x :=
    ⟨w.getLast hw, List.getLast?_eq_getLast_of_ne_nil hw⟩
  refine ⟨x, ?_, hx⟩
  unfold qPopLast
  rw [hx]

/-- `qLast` on a non-empty queue. -/
theorem qLast_of_ne_nil (w : Q) (hw : w ≠ []) : ∃ x, qLast w = some x :=
  ⟨w.getLast hw, List.getLast?_eq_getLast_of_ne_nil hw⟩

namespace Hnsw

/-- `searchStep` on an already-visited id is the identity. -/
theorem searchStep_visited (h : Hnsw) (q : Vec) (ef : Nat) (cand : Q)
    (vis : List EId) (w : Q) (fd : Dist) (e : EId) (hv : e ∈ vis) :
    searchStep h q ef (cand, vis, w, fd) e = some (cand, vis, w, fd) := by
  unfold searchStep
  dsimp only
  rw [if_pos hv]

/-- `searchStep` on a fresh dead id only records the visit. -/
theorem searchStep_dead (h : Hnsw) (q : Vec) (ef : Nat) (cand : Q)
    (vis : List EId) (w : Q) (fd : Dist) (e : EId) (hv : e ∉ vis)
    (hd : alGet h.elements e = none) :
    searchStep h q ef (cand, vis, w, fd) e = some (cand, e :: vis, w, fd) := by
  unfold searchStep
  dsimp only
  rw [if_neg hv, hd]

/-- `searchStep` on a fresh live id that is too far away and does not fit
only records the visit. -/
theorem searchStep_live_skip (h : Hnsw) (q : Vec) (ef : Nat) (cand : Q)
    (vis : List EId) (w : Q) (fd : Dist) (e : EId) (ept : Vec) (hv : e ∉ vis)
    (hd : alGet h.elements e = some ept)
    (hcond : ¬ (h.dist ept q < fd ∨ w.length < ef)) :
    searchStep h q ef (cand, vis, w, fd) e = some (cand, e :: vis, w, fd) := by
  unfold searchStep
  dsimp only
  rw [if_neg hv, hd]
  dsimp only
  rw [if_neg hcond]

/-- `searchStep` pushing a fresh live id without overflowing `ef`. -/
theorem searchStep_live_push (h : Hnsw) (q : Vec) (ef : Nat) (cand : Q)
    (vis : List EId) (w : Q) (fd : Dist) (e : EId) (ept : Vec) (hv : e ∉ vis)
    (hd : alGet h.elements e = some ept)
    (hcond : h.dist ept q < fd ∨ w.length < ef)
    (hfull : ¬ ef < (qPush w (h.dist ept q) e).length)
    (lst : QEntry) (hlast : qLast (qPush w (h.dist ept q) e) = some lst) :
    searchStep h q ef (cand, vis, w, fd) e =
      some (qPush cand (h.dist ept q) e, e :: vis,
        qPush w (h.dist ept q) e, lst.1) := by
  unfold searchStep
  dsimp only
  rw [if_neg hv, hd]
  dsimp only
  rw [if_pos hcond, if_neg hfull, hlast]

/-- `searchStep` pushing a fresh live id and evicting the maximum when
the result queue overflows `ef`. -/
theorem searchStep_live_push_evict (h : Hnsw) (q : Vec) (ef : Nat) (cand : Q)
    (vis : List EId) (w : Q) (fd : Dist) (e : EId) (ept : Vec) (hv : e ∉ vis)
    (hd : alGet h.elements e = some ept)
    (hcond : h.dist ept q < fd ∨ w.length < ef)
    (hfull : ef < (qPush w (h.dist ept q) e).length)
    (x : QEntry) (w2 : Q) (hpop : qPopLast (qPush w (h.dist ept q) e) = some (x, w2))
    (lst : QEntry) (hlast : qLast w2 = some lst) :
    searchStep h q ef (cand, vis, w, fd) e =
      some (qPush cand (h.dist ept q) e, e :: vis, w2, lst.1) := by
  unfold searchStep
  dsimp only
  rw [if_neg hv, hd]
  dsimp only
  rw [if_pos hcond, if_pos hfull, hpop]
  dsimp only
  rw [hlast]

/-- Unfolding `searchLoop` at zero fuel. -/
theorem searchLoop_zero (h : Hnsw) (q : Vec) (ef : Nat) (l : Graph)
    (cand : Q) (vis : List EId) (w : Q) (fd : Dist) :
    searchLoop h q ef l 0 cand vis w fd = none := rfl

/-- Unfolding `searchLoop` on an empty candidate queue. -/
theorem searchLoop_succ_nil (h : Hnsw) (q : Vec) (ef : Nat) (l : Graph)
    (f : Nat) (vis : List EId) (w : Q) (fd : Dist) :
    searchLoop h q ef l (f + 1) [] vis w fd = some w := rfl

/-- Unfolding one iteration of `searchLoop`. -/
theorem searchLoop_succ_cons (h : Hnsw) (q : Vec) (ef : Nat) (l : Graph)
    (f : Nat) (d : Dist) (c : EId) (cand' : Q) (vis : List EId) (w : Q) (fd : Dist) :
    searchLoop h q ef l (f + 1) ((d, c) :: cand') vis w fd =
      if fd < d then some w
      else
        match getEdges l c with
        | none => searchLoop h q ef l f cand' vis w fd
        | some es =>
          match es.foldlM (searchStep h q ef) (cand', vis, w, fd) with
          | none => none
          | some (cand2, vis2, w2, fd2) => searchLoop h q ef l f cand2 vis2 w2 fd2 := rfl

/-- One fold of `searchStep` over a neighborhood always succeeds when the
result queue is non-empty and `ef ≥ 1`; it keeps the result queue
non-empty, only adds live ids, only grows the visited set, and does not
increase the termination measure. -/
theorem foldlM_searchStep_some (h : Hnsw) (q : Vec) (ef : Nat)
    (hef : 1 ≤ ef) (hnd : (alKeys h.elements).Nodup) :
    ∀ (es : List EId) (cand : Q) (vis : List EId) (w : Q) (fd : Dist),
      w ≠ [] →
      ∃ cand2 vis2 w2 fd2,
        es.foldlM (searchStep h q ef) (cand, vis, w, fd) = some (cand2, vis2, w2, fd2) ∧
        w2 ≠ [] ∧
        (∀ x ∈ idsQ w2, x ∈ idsQ w ∨ x ∈ alKeys h.elements) ∧
        (∀ x ∈ vis, x ∈ vis2) ∧
        cand2.length + 2 * notVis (alKeys h.elements) vis2 ≤
          cand.length + 2 * notVis (alKeys h.elements) vis := by
  intro es
  induction es with
  | nil =>
    intro cand vis w fd hw
    exact ⟨cand, vis, w, fd, rfl, hw, fun x hx => Or.inl hx, fun x hx => hx, le_refl _⟩
  | cons e es ih =>
    intro cand vis w fd hw
    rw [List.foldlM_cons]
    by_cases hv : e ∈ vis
    · rw [searchStep_visited h q ef cand vis w fd e hv]
      exact ih cand vis w fd hw
    · cases hd : alGet h.elements e with
      | none =>
        rw [searchStep_dead h q ef cand vis w fd e hv hd]
        obtain ⟨c2, v2, w2, f2, heq, hw2, hids, hvis, hm⟩ := ih cand (e :: vis) w fd hw
        refine ⟨c2, v2, w2, f2, heq, hw2, hids,
          fun x hx => hvis x (List.mem_cons_of_mem _ hx), ?_⟩
        calc c2.length + 2 * notVis (alKeys h.elements) v2 ≤
            cand.length + 2 * notVis (alKeys h.elements) (e :: vis) := hm
          _ ≤ cand.length + 2 * notVis (alKeys h.elements) vis := by
            have := notVis_cons_le (alKeys h.elements) vis e
            omega
      | some ept =>
        have hlivee : e ∈ alKeys h.elements := by
          rw [← alGet_isSome_iff]
          rw [hd]
          rfl
        by_cases hcond : h.dist ept q < fd ∨ w.length < ef
        · have hnv := notVis_cons_lt (alKeys h.elements) vis e hnd hlivee hv
          by_cases hfull : ef < (qPush w (h.dist ept q) e).length
          · obtain ⟨x, hpop, -⟩ := qPopLast_of_ne_nil (qPush w (h.dist ept q) e)
              (qPush_ne_nil _ _ _)
            have hw2ne : (qPush w (h.dist ept q) e).dropLast ≠ [] := by
              intro hc
              have hl1 := qPush_length w (h.dist ept q) e
              have hl2 : (qPush w (h.dist ept q) e).dropLast.length =
                  (qPush w (h.dist ept q) e).length - 1 := List.length_dropLast _
              rw [hc] at hl2
              simp at hl2
              omega
            obtain ⟨lst, hlast⟩ := qLast_of_ne_nil _ hw2ne
            rw [searchStep_live_push_evict h q ef cand vis w fd e ept hv hd hcond
              hfull x _ hpop lst hlast]
            obtain ⟨c2, v2, w2, f2, heq, hw2, hids, hvis, hm⟩ :=
              ih (qPush cand (h.dist ept q) e) (e :: vis)
                ((qPush w (h.dist ept q) e).dropLast) lst.1 hw2ne
            refine ⟨c2, v2, w2, f2, heq, hw2, ?_,
              fun y hy => hvis y (List.mem_cons_of_mem _ hy), ?_⟩
            · intro y hy
              rcases hids y hy with hy2 | hy2
              · have hy3 : y ∈ idsQ (qPush w (h.dist ept q) e) := by
                  unfold idsQ at hy2 ⊢
                  obtain ⟨p, hp, rfl⟩ := List.mem_map.mp hy2
                  exact List.mem_map_of_mem _ ((List.dropLast_sublist _).subset hp)
                rcases List.mem_cons.mp ((idsQ_push_perm w (h.dist ept q) e).mem_iff.mp hy3) with h5 | h5
                · exact Or.inr (h5 ▸ hlivee)
                · exact Or.inl h5
              · exact Or.inr hy2
            · have hcl := qPush_length cand (h.dist ept q) e
              calc c2.length + 2 * notVis (alKeys h.elements) v2 ≤
                  (qPush cand (h.dist ept q) e).length +
                    2 * notVis (alKeys h.elements) (e :: vis) := hm
                _ ≤ cand.length + 2 * notVis (alKeys h.elements) vis := by omega
          · obtain ⟨lst, hlast⟩ := qLast_of_ne_nil _ (qPush_ne_nil w (h.dist ept q) e)
            rw [searchStep_live_push h q ef cand vis w fd e ept hv hd hcond hfull lst hlast]
            obtain ⟨c2, v2, w2, f2, heq, hw2, hids, hvis, hm⟩ :=
              ih (qPush cand (h.dist ept q) e) (e :: vis)
                (qPush w (h.dist ept q) e) lst.1 (qPush_ne_nil _ _ _)
            refine ⟨c2, v2, w2, f2, heq, hw2, ?_,
              fun y hy => hvis y (List.mem_cons_of_mem _ hy), ?_⟩
            · intro y hy
              rcases hids y hy with hy2 | hy2
              · rcases List.mem_cons.mp ((idsQ_push_perm w (h.dist ept q) e).mem_iff.mp hy2) with h5 | h5
                · exact Or.inr (h5 ▸ hlivee)
                · exact Or.inl h5
              · exact Or.inr hy2
            · have hcl := qPush_length cand (h.dist ept q) e
              calc c2.length + 2 * notVis (alKeys h.elements) v2 ≤
                  (qPush cand (h.dist ept q) e).length +
                    2 * notVis (alKeys h.elements) (e :: vis) := hm
                _ ≤ cand.length + 2 * notVis (alKeys h.elements) vis := by omega
        · rw [searchStep_live_skip h q ef cand vis w fd e ept hv hd hcond]
          obtain ⟨c2, v2, w2, f2, heq, hw2, hids, hvis, hm⟩ := ih cand (e :: vis) w fd hw
          refine ⟨c2, v2, w2, f2, heq, hw2, hids,
            fun x hx => hvis x (List.mem_cons_of_mem _ hx), ?_⟩
          calc c2.length + 2 * notVis (alKeys h.elements) v2 ≤
              cand.length + 2 * notVis (alKeys h.elements) (e :: vis) := hm
            _ ≤ cand.length + 2 * notVis (alKeys h.elements) vis := by
              have := notVis_cons_le (alKeys h.elements) vis e
              omega

end Hnsw

namespace Hnsw

/-- The search loop always terminates with `some` given enough fuel: the
measure `|cand| + 2·notVis` strictly decreases every iteration.  The
result queue stays non-empty and only gains live ids. -/
theorem searchLoop_some (h : Hnsw) (q : Vec) (ef : Nat) (l : Graph)
    (hef : 1 ≤ ef) (hnd : (alKeys h.elements).Nodup) :
    ∀ (fuel : Nat) (cand : Q) (vis : List EId) (w : Q) (fd : Dist),
      w ≠ [] →
      cand.length + 2 * notVis (alKeys h.elements) vis + 1 ≤ fuel →
      ∃ w2, searchLoop h q ef l fuel cand vis w fd = some w2 ∧ w2 ≠ [] ∧
        (∀ x ∈ idsQ w2, x ∈ idsQ w ∨ x ∈ alKeys h.elements) := by
  intro fuel
  induction fuel using Nat.strong_induction_on with
  | _ fuel IH =>
    intro cand vis w fd hw hfuel
    cases fuel with
    | zero => omega
    | succ f =>
      cases cand with
      | nil =>
        rw [searchLoop_succ_nil]
        exact ⟨w, rfl, hw, fun x hx => Or.inl hx⟩
      | cons p cand2 =>
        obtain ⟨d, c⟩ := p
        rw [searchLoop_succ_cons]
        by_cases hbr : fd < d
        · rw [if_pos hbr]
          exact ⟨w, rfl, hw, fun x hx => Or.inl hx⟩
        · rw [if_neg hbr]
          cases hge : getEdges l c with
          | none =>
            have hlen : cand2.length + 2 * notVis (alKeys h.elements) vis + 1 ≤ f := by
              simp only [List.length_cons] at hfuel
              omega
            exact IH f (by omega) cand2 vis w fd hw hlen
          | some es =>
            obtain ⟨c2, v2, w2, f2, heq, hw2, hids, hvis, hm⟩ :=
              foldlM_searchStep_some h q ef hef hnd es cand2 vis w fd hw
            dsimp only
            rw [heq]
            have hlen : c2.length + 2 * notVis (alKeys h.elements) v2 + 1 ≤ f := by
              simp only [List.length_cons] at hfuel
              omega
            obtain ⟨w3, heq3, hw3, hids3⟩ := IH f (by omega) c2 v2 w2 f2 hw2 hlen
            refine ⟨w3, heq3, hw3, ?_⟩
            intro x hx
            rcases hids3 x hx with h5 | h5
            · exact hids x h5
            · exact Or.inr h5

/-- `search_layer_single` always succeeds with enough fuel, returning a
non-empty queue of ids drawn from the seed and the live elements. -/
theorem searchLayerSingle_some (h : Hnsw) (q : Vec) (ep : QEntry) (ef : Nat)
    (l : Graph) (fuel : Nat) (hef : 1 ≤ ef)
    (hnd : (alKeys h.elements).Nodup)
    (hfuel : 2 * (alKeys h.elements).length + 2 ≤ fuel) :
    ∃ w2, searchLayerSingle h q ep ef l fuel = some w2 ∧ w2 ≠ [] ∧
      (∀ x ∈ idsQ w2, x = ep.2 ∨ x ∈ alKeys h.elements) := by
  unfold searchLayerSingle searchLayer
  obtain ⟨d, e⟩ := ep
  have hnv : notVis (alKeys h.elements) [e] ≤ (alKeys h.elements).length := by
    unfold notVis
    exact (List.length_filter_le _ _)
  obtain ⟨w2, heq, hw2, hids⟩ := searchLoop_some h q ef l hef hnd fuel
    [(d, e)] [e] [(d, e)] d (by simp) (by simp only [List.length_cons, List.length_nil]; omega)
  refine ⟨w2, ?_, hw2, ?_⟩
  · show Hnsw.searchLoop h q ef l fuel [(d, e)] [e] [(d, e)] d = some w2
    exact heq
  · intro x hx
    rcases hids x hx with h5 | h5
    · left
      simpa [idsQ] using h5
    · exact Or.inr h5

/-- The greedy descent always succeeds with enough fuel, and its result
is the seed or a live element. -/
theorem descendLoop_some (h : Hnsw) (q : Vec) (fuel : Nat)
    (hnd : (alKeys h.elements).Nodup)
    (hfuel : 2 * (alKeys h.elements).length + 2 ≤ fuel) :
    ∀ (lcs : List Nat) (ep : QEntry), ep.2 ∈ alKeys h.elements →
      ∃ ep2, descendLoop h q fuel lcs ep = some ep2 ∧ ep2.2 ∈ alKeys h.elements := by
  intro lcs
  induction lcs with
  | nil => intro ep hep; exact ⟨ep, rfl, hep⟩
  | cons lc rest ih =>
    intro ep hep
    obtain ⟨w2, heq, hw2, hids⟩ := searchLayerSingle_some h q ep 1
      (h.layers.getD lc []) fuel (le_refl 1) hnd hfuel
    unfold descendLoop
    rw [heq]
    dsimp only
    obtain ⟨ep1, hep1⟩ : ∃ ep1, qFirst w2 = some ep1 := by
      cases hw0 : w2 with
      | nil => exact absurd hw0 hw2
      | cons a t => exact ⟨a, rfl⟩
    rw [hep1]
    have hep1l : ep1.2 ∈ alKeys h.elements := by
      have hmem : ep1.2 ∈ idsQ w2 := by
        unfold qFirst at hep1
        cases w2 with
        | nil => simp at hep1
        | cons a t =>
          have ha : a = ep1 := by simpa using hep1
          unfold idsQ
          rw [← ha]
          exact List.mem_map_of_mem _ (List.mem_cons_self _ _)
      rcases hids ep1.2 hmem with h5 | h5
      · exact h5 ▸ hep
      · exact h5
    exact ih ep1 hep1l

end Hnsw

/-- A duplicate-free list strictly contained in another list is strictly
shorter. -/
theorem length_lt_of_nodup_ssubset {l L : List EId} (h : l.Nodup) (hL : L.Nodup)
    (hsub : ∀ x ∈ l, x ∈ L) (a : EId) (ha : a ∈ L) (hna : a ∉ l) :
    l.length < L.length := by
  rw [← List.toFinset_card_of_nodup h, ← List.toFinset_card_of_nodup hL]
  apply Finset.card_lt_card
  constructor
  · intro x hx
    exact List.mem_toFinset.mpr (hsub x (List.mem_toFinset.mp hx))
  · intro hc
    exact hna (List.mem_toFinset.mp (hc (List.mem_toFinset.mpr ha)))

/-- Two duplicate-free lists with the same members have the same length. -/
theorem length_eq_of_nodup_iff {l L : List EId} (h : l.Nodup) (hL : L.Nodup)
    (hs : ∀ x, x ∈ l ↔ x ∈ L) : l.length = L.length := by
  have h1 : l.toFinset = L.toFinset := List.toFinset.ext_iff.mpr hs
  rw [← List.toFinset_card_of_nodup h, ← List.toFinset_card_of_nodup hL, h1]

/-- The id list has the queue's length. -/
theorem idsQ_length (w : Q) : (idsQ w).length = w.length := List.length_map w Prod.snd

namespace Hnsw

/-- The breadth-first invariant of one `search_layer` neighborhood fold
when `ef` bounds the live count: the result queue's ids are exactly the
visited live ids, the candidate queue is a sub-multiset of the result
queue, and every visited live id is either still a candidate, fully
explored, or the currently popped element `c`.  No eviction can happen,
the processed neighbors all end up visited, the candidate ids only grow
and the termination measure does not increase. -/
theorem foldlM_searchStep_inv (h : Hnsw) (q : Vec) (ef : Nat) (l : Graph)
    (c : EId) (hnd : (alKeys h.elements).Nodup)
    (hef : (alKeys h.elements).length ≤ ef) :
    ∀ (es : List EId) (cand : Q) (vis : List EId) (w : Q) (fd : Dist),
      QSorted w → (idsQ w).Nodup →
      (∀ x, x ∈ idsQ w ↔ x ∈ vis ∧ x ∈ alKeys h.elements) →
      ((cand : Multiset QEntry) ≤ (w : Multiset QEntry)) →
      (∀ v ∈ vis, v ∈ alKeys h.elements →
        v ∈ idsQ cand ∨ (∀ u ∈ edgesD l v, u ∈ vis) ∨ v = c) →
      (∃ i, qLast w = some (fd, i)) →
      ∃ cand2 vis2 w2 fd2,
        es.foldlM (searchStep h q ef) (cand, vis, w, fd) = some (cand2, vis2, w2, fd2) ∧
        QSorted w2 ∧ (idsQ w2).Nodup ∧
        (∀ x, x ∈ idsQ w2 ↔ x ∈ vis2 ∧ x ∈ alKeys h.elements) ∧
        ((cand2 : Multiset QEntry) ≤ (w2 : Multiset QEntry)) ∧
        (∀ v ∈ vis2, v ∈ alKeys h.elements →
          v ∈ idsQ cand2 ∨ (∀ u ∈ edgesD l v, u ∈ vis2) ∨ v = c) ∧
        (∃ i, qLast w2 = some (fd2, i)) ∧
        (∀ x ∈ vis, x ∈ vis2) ∧ (∀ x ∈ es, x ∈ vis2) ∧
        (∀ x ∈ idsQ cand, x ∈ idsQ cand2) ∧
        cand2.length + 2 * notVis (alKeys h.elements) vis2 ≤
          cand.length + 2 * notVis (alKeys h.elements) vis := by
  intro es
  induction es with
  | nil =>
    intro cand vis w fd hs hwn hwi hcs hfr hfd
    exact ⟨cand, vis, w, fd, rfl, hs, hwn, hwi, hcs, hfr, hfd, fun x hx => hx,
      fun x hx => absurd hx (List.not_mem_nil x), fun x hx => hx, le_refl _⟩
  | cons e es ih =>
    intro cand vis w fd hs hwn hwi hcs hfr hfd
    rw [List.foldlM_cons]
    by_cases hv : e ∈ vis
    · rw [searchStep_visited h q ef cand vis w fd e hv]
      obtain ⟨c2, v2, w2, f2, heq, p1, p2, p3, p4, p5, p6, p7, p8, p9, p10⟩ :=
        ih cand vis w fd hs hwn hwi hcs hfr hfd
      refine ⟨c2, v2, w2, f2, heq, p1, p2, p3, p4, p5, p6, p7, ?_, p9, p10⟩
      intro x hx
      rcases List.mem_cons.mp hx with rfl | hx2
      · exact p7 x hv
      · exact p8 x hx2
    · cases hd : alGet h.elements e with
      | none =>
        have hdead : e ∉ alKeys h.elements := (alGet_eq_none_iff h.elements e).mp hd
        rw [searchStep_dead h q ef cand vis w fd e hv hd]
        have hwi2 : ∀ x, x ∈ idsQ w ↔ x ∈ e :: vis ∧ x ∈ alKeys h.elements := by
          intro x
          rw [hwi x]
          constructor
          · rintro ⟨h1, h2⟩
            exact ⟨List.mem_cons_of_mem _ h1, h2⟩
          · rintro ⟨h1, h2⟩
            rcases List.mem_cons.mp h1 with rfl | h1
            · exact absurd h2 hdead
            · exact ⟨h1, h2⟩
        have hfr2 : ∀ v ∈ e :: vis, v ∈ alKeys h.elements →
            v ∈ idsQ cand ∨ (∀ u ∈ edgesD l v, u ∈ e :: vis) ∨ v = c := by
          intro v hvm hvl
          rcases List.mem_cons.mp hvm with rfl | hvm
          · exact absurd hvl hdead
          · rcases hfr v hvm hvl with h1 | h1 | h1
            · exact Or.inl h1
            · exact Or.inr (Or.inl fun u hu => List.mem_cons_of_mem _ (h1 u hu))
            · exact Or.inr (Or.inr h1)
        obtain ⟨c2, v2, w2, f2, heq, p1, p2, p3, p4, p5, p6, p7, p8, p9, p10⟩ :=
          ih cand (e :: vis) w fd hs hwn hwi2 hcs hfr2 hfd
        refine ⟨c2, v2, w2, f2, heq, p1, p2, p3, p4, p5, p6,
          fun x hx => p7 x (List.mem_cons_of_mem _ hx), ?_, p9, ?_⟩
        · intro x hx
          rcases List.mem_cons.mp hx with rfl | hx2
          · exact p7 x (List.mem_cons_self _ _)
          · exact p8 x hx2
        · have h2 := notVis_cons_le (alKeys h.elements) vis e
          omega
      | some ept =>
        have hlivee : e ∈ alKeys h.elements := by
          rw [← alGet_isSome_iff, hd]
          rfl
        have hnotw : e ∉ idsQ w := fun hc => hv ((hwi e).mp hc).1
        have hwlt : w.length < ef := by
          have h1 : (idsQ w).length < (alKeys h.elements).length :=
            length_lt_of_nodup_ssubset hwn hnd (fun x hx => ((hwi x).mp hx).2)
              e hlivee hnotw
          rw [idsQ_length] at h1
          omega
        have hcond : h.dist ept q < fd ∨ w.length < ef := Or.inr hwlt
        have hfull : ¬ ef < (qPush w (h.dist ept q) e).length := by
          rw [qPush_length]
          have h1 : (idsQ w).length < (alKeys h.elements).length :=
            length_lt_of_nodup_ssubset hwn hnd (fun x hx => ((hwi x).mp hx).2)
              e hlivee hnotw
          rw [idsQ_length] at h1
          omega
        obtain ⟨lst, hlast⟩ := qLast_of_ne_nil _ (qPush_ne_nil w (h.dist ept q) e)
        rw [searchStep_live_push h q ef cand vis w fd e ept hv hd hcond hfull lst hlast]
        have hs2 : QSorted (qPush w (h.dist ept q) e) := hs.push _ _
        have hwn2 : (idsQ (qPush w (h.dist ept q) e)).Nodup :=
          (idsQ_push_perm w (h.dist ept q) e).nodup_iff.mpr
            (List.nodup_cons.mpr ⟨hnotw, hwn⟩)
        have hmemp : ∀ x, x ∈ idsQ (qPush w (h.dist ept q) e) ↔ x = e ∨ x ∈ idsQ w := by
          intro x
          rw [(idsQ_push_perm w (h.dist ept q) e).mem_iff]
          exact List.mem_cons
        have hwi2 : ∀ x, x ∈ idsQ (qPush w (h.dist ept q) e) ↔
            x ∈ e :: vis ∧ x ∈ alKeys h.elements := by
          intro x
          rw [hmemp x]
          constructor
          · rintro (rfl | h1)
            · exact ⟨List.mem_cons_self _ _, hlivee⟩
            · obtain ⟨h2, h3⟩ := (hwi x).mp h1
              exact ⟨List.mem_cons_of_mem _ h2, h3⟩
          · rintro ⟨h1, h2⟩
            rcases List.mem_cons.mp h1 with rfl | h1
            · exact Or.inl rfl
            · exact Or.inr ((hwi x).mpr ⟨h1, h2⟩)
        have hcs2 : ((qPush cand (h.dist ept q) e : Q) : Multiset QEntry) ≤
            ((qPush w (h.dist ept q) e : Q) : Multiset QEntry) := by
          rw [qPush_coe, qPush_coe]
          exact Multiset.cons_le_cons _ hcs
        have hmemc : ∀ x ∈ idsQ cand, x ∈ idsQ (qPush cand (h.dist ept q) e) := by
          intro x hx
          rw [(idsQ_push_perm cand (h.dist ept q) e).mem_iff]
          exact List.mem_cons_of_mem _ hx
        have hfr2 : ∀ v ∈ e :: vis, v ∈ alKeys h.elements →
            v ∈ idsQ (qPush cand (h.dist ept q) e) ∨
            (∀ u ∈ edgesD l v, u ∈ e :: vis) ∨ v = c := by
          intro v hvm hvl
          rcases List.mem_cons.mp hvm with rfl | hvm
          · refine Or.inl ?_
            rw [(idsQ_push_perm cand (h.dist ept q) v).mem_iff]
            exact List.mem_cons_self _ _
          · rcases hfr v hvm hvl with h1 | h1 | h1
            · exact Or.inl (hmemc v h1)
            · exact Or.inr (Or.inl fun u hu => List.mem_cons_of_mem _ (h1 u hu))
            · exact Or.inr (Or.inr h1)
        have hfd2 : ∃ i, qLast (qPush w (h.dist ept q) e) = some (lst.1, i) :=
          ⟨lst.2, hlast⟩
        obtain ⟨c2, v2, w2, f2, heq, p1, p2, p3, p4, p5, p6, p7, p8, p9, p10⟩ :=
          ih (qPush cand (h.dist ept q) e)
            (e :: vis) (qPush w (h.dist ept q) e) lst.1 hs2 hwn2 hwi2 hcs2 hfr2 hfd2
        refine ⟨c2, v2, w2, f2, heq, p1, p2, p3, p4, p5, p6,
          fun x hx => p7 x (List.mem_cons_of_mem _ hx), ?_,
          fun x hx => p9 x (hmemc x hx), ?_⟩
        · intro x hx
          rcases List.mem_cons.mp hx with rfl | hx2
          · exact p7 x (List.mem_cons_self _ _)
          · exact p8 x hx2
        · have h2 := notVis_cons_lt (alKeys h.elements) vis e hnd hlivee hv
          have h3 := qPush_length cand (h.dist ept q) e
          omega

end Hnsw

namespace Hnsw

/-- The breadth-first completeness of `search_layer` when `ef` bounds the
live count: the loop terminates by exhausting the candidates (the break
never fires because every candidate still sits in the result queue), and
on exit the result queue's ids are exactly the visited live ids, with the
visited set closed under the edges of live elements. -/
theorem searchLoop_complete (h : Hnsw) (q : Vec) (ef : Nat) (l : Graph)
    (hnd : (alKeys h.elements).Nodup)
    (hef : (alKeys h.elements).length ≤ ef) :
    ∀ (fuel : Nat) (cand : Q) (vis : List EId) (w : Q) (fd : Dist),
      QSorted w → (idsQ w).Nodup →
      (∀ x, x ∈ idsQ w ↔ x ∈ vis ∧ x ∈ alKeys h.elements) →
      ((cand : Multiset QEntry) ≤ (w : Multiset QEntry)) →
      (∀ v ∈ vis, v ∈ alKeys h.elements →
        v ∈ idsQ cand ∨ (∀ u ∈ edgesD l v, u ∈ vis)) →
      (∃ i, qLast w = some (fd, i)) →
      cand.length + 2 * notVis (alKeys h.elements) vis + 1 ≤ fuel →
      ∃ (w2 : Q) (vis2 : List EId), searchLoop h q ef l fuel cand vis w fd = some w2 ∧
        (∀ x, x ∈ idsQ w2 ↔ x ∈ vis2 ∧ x ∈ alKeys h.elements) ∧
        (idsQ w2).Nodup ∧
        (∀ x ∈ vis, x ∈ vis2) ∧
        (∀ v ∈ vis2, v ∈ alKeys h.elements → ∀ u ∈ edgesD l v, u ∈ vis2) := by
  intro fuel
  induction fuel using Nat.strong_induction_on with
  | _ fuel IH =>
    intro cand vis w fd hs hwn hwi hcs hfr hfd hfuel
    cases fuel with
    | zero => omega
    | succ f =>
      cases cand with
      | nil =>
        rw [searchLoop_succ_nil]
        refine ⟨w, vis, rfl, hwi, hwn, fun x hx => hx, ?_⟩
        intro v hvm hvl u hu
        rcases hfr v hvm hvl with h1 | h1
        · exact absurd h1 (by simp [idsQ])
        · exact h1 u hu
      | cons p cand2 =>
        obtain ⟨d, c⟩ := p
        have hmemw : (d, c) ∈ w := by
          have h1 : (d, c) ∈ (((d, c) :: cand2 : Q) : Multiset QEntry) := by
            simp
          exact Multiset.mem_coe.mp (Multiset.mem_of_le hcs h1)
        have hdle : ¬ fd < d := by
          obtain ⟨i, hlast⟩ := hfd
          exact not_lt.mpr (sorted_le_last hs hmemw hlast)
        have hcw : c ∈ idsQ w := by
          unfold idsQ
          exact List.mem_map_of_mem Prod.snd hmemw
        obtain ⟨hcvis, hclive⟩ := (hwi c).mp hcw
        rw [searchLoop_succ_cons, if_neg hdle]
        have hsub2 : ((cand2 : Q) : Multiset QEntry) ≤ (w : Multiset QEntry) := by
          refine le_trans ?_ hcs
          exact Multiset.le_cons_self _ _
        cases hge : getEdges l c with
        | none =>
          have hfr2 : ∀ v ∈ vis, v ∈ alKeys h.elements →
              v ∈ idsQ cand2 ∨ (∀ u ∈ edgesD l v, u ∈ vis) := by
            intro v hvm hvl
            rcases hfr v hvm hvl with h1 | h1
            · unfold idsQ at h1
              rcases List.mem_cons.mp h1 with rfl | h1
              · refine Or.inr ?_
                unfold edgesD
                rw [hge]
                intro u hu
                cases hu
              · exact Or.inl h1
            · exact Or.inr h1
          have hlen : cand2.length + 2 * notVis (alKeys h.elements) vis + 1 ≤ f := by
            simp only [List.length_cons] at hfuel
            omega
          exact IH f (by omega) cand2 vis w fd hs hwn hwi hsub2 hfr2 hfd hlen
        | some es =>
          have hfrx : ∀ v ∈ vis, v ∈ alKeys h.elements →
              v ∈ idsQ cand2 ∨ (∀ u ∈ edgesD l v, u ∈ vis) ∨ v = c := by
            intro v hvm hvl
            rcases hfr v hvm hvl with h1 | h1
            · unfold idsQ at h1
              rcases List.mem_cons.mp h1 with rfl | h1
              · exact Or.inr (Or.inr rfl)
              · exact Or.inl h1
            · exact Or.inr (Or.inl h1)
          obtain ⟨c2, v2, w2, f2, heq, p1, p2, p3, p4, p5, p6, p7, p8, p9, p10⟩ :=
            foldlM_searchStep_inv h q ef l c hnd hef es cand2 vis w fd
              hs hwn hwi hsub2 hfrx hfd
          dsimp only
          rw [heq]
          have hfr3 : ∀ v ∈ v2, v ∈ alKeys h.elements →
              v ∈ idsQ c2 ∨ (∀ u ∈ edgesD l v, u ∈ v2) := by
            intro v hvm hvl
            rcases p5 v hvm hvl with h1 | h1 | h1
            · exact Or.inl h1
            · exact Or.inr h1
            · refine Or.inr ?_
              subst h1
              unfold edgesD
              rw [hge]
              exact p8
          have hlen : c2.length + 2 * notVis (alKeys h.elements) v2 + 1 ≤ f := by
            simp only [List.length_cons] at hfuel
            omega
          obtain ⟨w3, vis3, heq3, q1, q2, q3, q4⟩ :=
            IH f (by omega) c2 v2 w2 f2 p1 p2 p3 p4 hfr3 p6 hlen
          exact ⟨w3, vis3, heq3, q1, q2, fun x hx => q3 x (p7 x hx), q4⟩

/-- `search_layer_single` finds every live element when `ef` bounds the
live count and the layer connects the seed to all of them: the result
queue then holds exactly the live elements. -/
theorem searchLayerSingle_complete (h : Hnsw) (q : Vec) (ep : QEntry) (ef : Nat)
    (l : Graph) (fuel : Nat)
    (hnd : (alKeys h.elements).Nodup)
    (hepl : ep.2 ∈ alKeys h.elements)
    (hef : (alKeys h.elements).length ≤ ef)
    (hfuel : 2 * (alKeys h.elements).length + 2 ≤ fuel)
    (hreach : ∀ x ∈ alKeys h.elements, LiveReach h.elements l ep.2 x) :
    ∃ w2, searchLayerSingle h q ep ef l fuel = some w2 ∧
      w2.length = (alKeys h.elements).length := by
  unfold searchLayerSingle searchLayer
  obtain ⟨d, e⟩ := ep
  have hel : e ∈ alKeys h.elements := hepl
  have hnv : notVis (alKeys h.elements) [e] ≤ (alKeys h.elements).length :=
    List.length_filter_le _ _
  have hwi : ∀ x, x ∈ idsQ [(d, e)] ↔ x ∈ [e] ∧ x ∈ alKeys h.elements := by
    intro x
    simp only [idsQ, List.map_cons, List.map_nil, List.mem_singleton]
    constructor
    · rintro rfl
      exact ⟨rfl, hel⟩
    · exact fun h1 => h1.1
  have hfr : ∀ v ∈ [e], v ∈ alKeys h.elements →
      v ∈ idsQ [(d, e)] ∨ (∀ u ∈ edgesD l v, u ∈ [e]) := by
    intro v hv _
    left
    simp only [List.mem_singleton] at hv
    subst hv
    simp [idsQ]
  have hfd : ∃ i, qLast [(d, e)] = some (d, i) := ⟨e, rfl⟩
  obtain ⟨w2, vis2, heq, q1, q2, q3, q4⟩ := searchLoop_complete h q ef l hnd hef fuel
    [(d, e)] [e] [(d, e)] d (List.sorted_singleton _) (by simp [idsQ]) hwi (le_refl _)
    hfr hfd (by simp only [List.length_cons, List.length_nil]; omega)
  refine ⟨w2, ?_, ?_⟩
  · show Hnsw.searchLoop h q ef l fuel [(d, e)] [e] [(d, e)] d = some w2
    exact heq
  · have hiff : ∀ x, x ∈ idsQ w2 ↔ x ∈ alKeys h.elements := by
      intro x
      constructor
      · intro hx
        exact ((q1 x).mp hx).2
      · intro hx
        refine (q1 x).mpr ⟨?_, hx⟩
        exact (LiveReach.mem_closed (q3 e (List.mem_cons_self _ _)) hel q4
          (hreach x hx)).1
    have hlen := length_eq_of_nodup_iff q2 hnd hiff
    rw [idsQ_length] at hlen
    exact hlen

end Hnsw

/-- **C4 (amended).** `knn_search` returns exactly `min(k, live_element_count)`
results when `efs` bounds the live element count and the live elements are
mutually reachable through live elements in the layer-0 graph: for every
query, `k` and sufficient fuel, on any state with a live enter point and a
duplicate-free element record. -/
theorem c4_knn_search_result_size_amended (h : Hnsw) (q : Vec) (k efs fuel : Nat)
    (ep_id : EId) (hep : h.enterPoint = some ep_id)
    (hepl : ep_id ∈ alKeys h.elements)
    (hnd : (alKeys h.elements).Nodup)
    (hef : (alKeys h.elements).length ≤ efs)
    (hfuel : 2 * (alKeys h.elements).length + 2 ≤ fuel)
    (hconn : ∀ s ∈ alKeys h.elements, ∀ x ∈ alKeys h.elements,
      LiveReach h.elements (h.layers.getD 0 []) s x) :
    ∃ res, h.knnSearch q k efs fuel = some res ∧
      res.length = min k (alKeys h.elements).length := by
  obtain ⟨pt, hpt⟩ : ∃ pt, alGet h.elements ep_id = some pt :=
    Option.isSome_iff_exists.mp ((alGet_isSome_iff h.elements ep_id).mpr hepl)
  have h1 : h.getPn q ep_id = some (h.dist pt q, ep_id) := by
    unfold Hnsw.getPn
    rw [hpt]
    rfl
  obtain ⟨ep2, hd2, hd2l⟩ := Hnsw.descendLoop_some h q fuel hnd hfuel
    ((List.range' 1 (h.layers.length - 1)).reverse) (h.dist pt q, ep_id) hepl
  obtain ⟨w2, hw2, hwlen⟩ := Hnsw.searchLayerSingle_complete h q ep2 efs
    (h.layers.getD 0 []) fuel hnd hd2l hef hfuel (hconn ep2.2 hd2l)
  refine ⟨w2.take k, ?_, ?_⟩
  · unfold Hnsw.knnSearch
    rw [hep]
    dsimp only
    rw [h1]
    simp only [Option.pure_def, Option.bind_eq_bind, Option.some_bind, hd2, hw2]
  · rw [List.length_take, hwlen]

/-- Witness for C4 (amended): on the two-element index (two live elements,
layer-0 graph `0 ↔ 1`), `knn_search` with `k = 1` and `efs = 2` returns
exactly `min 1 2 = 1` result. -/
theorem c4_knn_search_result_size_amended_witness :
    ∃ res, twoElemHD.knnSearch [0] 1 2 20 = some res ∧
      res.length = min 1 (alKeys twoElemHD.elements).length := by
  apply c4_knn_search_result_size_amended twoElemHD [0] 1 2 20 0
  · rfl
  · decide
  · decide
  · decide
  · decide
  · have hk : alKeys twoElemHD.elements = [0, 1] := by decide
    intro s hs x hx
    rw [hk] at hs hx
    simp only [List.mem_cons, List.not_mem_nil, or_false] at hs hx
    rcases hs with rfl | rfl
    · rcases hx with rfl | rfl
      · exact LiveReach.refl 0
      · exact LiveReach.step (LiveReach.refl 0) (by decide) (by decide)
    · rcases hx with rfl | rfl
      · exact LiveReach.step (LiveReach.refl 1) (by decide) (by decide)
      · exact LiveReach.refl 1

end Hnsw2Proof
